import Mathlib

/-!
Verification of the chunk-assembly, index-store, retriever and structured-extraction
core of the rag-for-mining backend, by a shallow embedding of the Python source
into Lean.

Modelling conventions:
* A Python `str` is modelled as `List Char` (a sequence of code points), called `Str`.
* Python integers are `Int` (or `Nat` where the source only ever sees naturals).
* A raising Python function returns `Option`/`Except`; `none`/`.error` models the raise.
* Stateful filesystem code is modelled by explicit state passing over a `FileSystem` record.
* Whitespace for `str.strip()` is modelled by the ASCII whitespace characters.
-/

/-- Model of Python `str`: a list of code points. -/
abbrev Str := List Char

/-- Convert a Lean string literal to the `Str` model. -/
def str (s : String) : Str := s.data

/-- ASCII whitespace, the characters stripped by Python `str.strip()`
(space, tab, newline, carriage return, vertical tab, form feed). -/
def pyIsSpace (c : Char) : Bool :=
  c = ' ' || c = '\t' || c = '\n' || c = '\x0d' || c = '\x0b' || c = '\x0c'

/-- Model of Python `str.lstrip()`. -/
def pyStripLeft (s : Str) : Str := s.dropWhile pyIsSpace

/-- Model of Python `str.rstrip()`. -/
def pyStripRight (s : Str) : Str := (s.reverse.dropWhile pyIsSpace).reverse

/-- Model of Python `str.strip()`. -/
def pyStrip (s : Str) : Str := pyStripLeft (pyStripRight s)

/-- Model of Python `sep.join(parts)`. -/
def pyJoin (sep : Str) : List Str → Str
  | [] => []
  | [x] => x
  | x :: xs => x ++ sep ++ pyJoin sep xs

/-- Model of Python `s[-k:]` for `k ≥ 1`: the trailing `k` characters
(the whole string when it is shorter than `k`). -/
def takeLast (k : Nat) (s : Str) : Str := s.drop (s.length - k)

/-- Decimal digit character for a digit value `0..9` (values `≥ 9` all map to the
digit `9`; the function is only ever applied to `n % 10`). -/
def digitChar : Nat → Char
  | 0 => '0' | 1 => '1' | 2 => '2' | 3 => '3' | 4 => '4'
  | 5 => '5' | 6 => '6' | 7 => '7' | 8 => '8' | _ => '9'

/-- Decimal digits of a natural number, most significant first, computed with
explicit fuel (structural recursion; `fuel > n` always suffices). -/
def natDigitsF : Nat → Nat → Str
  | 0, _ => []
  | f + 1, n =>
    if n < 10 then [digitChar n]
    else natDigitsF f (n / 10) ++ [digitChar (n % 10)]

/-- Model of Python `f"{n}"` for a non-negative integer: decimal representation. -/
def natStr (n : Nat) : Str := natDigitsF (n + 1) n

/-- Model of Python `f"{i}"` for an arbitrary integer. -/
def intStr (i : Int) : Str :=
  if i < 0 then '-' :: natStr (-i).toNat else natStr i.toNat

/-- Decode a digit list back to the number: left inverse used to prove that
decimal representation is injective. -/
def decDigits (s : Str) : Nat := s.foldl (fun a c => 10 * a + (c.toNat - 48)) 0

/-- Data model `Chunk` from `backend/models/chunk.py`: an id, a page number, the
text, and an optional breadcrumb section hint. -/
structure Chunk where
  chunk_id : Str
  page : Int
  text : Str
  section_hint : Option Str := none
deriving DecidableEq, Repr

/-- The chunk id `f"p{page_num}_{start}"` used by `simple_chunk_pages`. -/
def pChunkId (page_num : Int) (start : Nat) : Str :=
  'p' :: intStr page_num ++ '_' :: natStr start

/-- The page-window loop of `simple_chunk_pages` (`backend/services/ingest.py`,
lines 12-23), for one page.  The Python `while start < n` loop is modelled with
explicit fuel counting loop iterations; `none` models non-termination within the
given fuel.  The Python clamp `if start < 0: start = 0` coincides with truncated
natural subtraction in `end - overlap`. -/
def pageLoop (max_chars overlap : Nat) (page_num : Int) (text : Str) :
    Nat → Nat → Option (List Chunk)
  | 0, start => if start < text.length then none else some []
  | fuel + 1, start =>
    if start < text.length then
      let e := min text.length (start + max_chars)
      let c : Chunk := { chunk_id := pChunkId page_num start, page := page_num,
                         text := (text.drop start).take (e - start) }
      if e = text.length then some [c]
      else
        match pageLoop max_chars overlap page_num text fuel (e - overlap) with
        | some rest => some (c :: rest)
        | none => none
    else some []

/-- `simple_chunk_pages` from `backend/services/ingest.py`: slide a window of
`max_chars` over each page's text, stepping by `max_chars - overlap`, never
crossing page boundaries.  The Python function appends page by page into one
shared list, which is the concatenation modelled here.  Fuel `text.length + 1`
bounds the per-page loop; `none` models non-termination of the source loop. -/
def simple_chunk_pages (pages : List (Int × Str)) (max_chars : Nat := 2000)
    (overlap : Nat := 200) : Option (List Chunk) :=
  (pages.mapM fun pg => pageLoop max_chars overlap pg.1 pg.2 (pg.2.length + 1) 0).map
    List.flatten

/-- Transient `Span` from the spec's data model: `(text, page, section_path)`
triple produced while walking the parsed tree (`_iter_text_nodes`). -/
structure Span where
  text : Str
  page : Option Int
  path : Option Str
deriving DecidableEq, Repr

/-- Python `page or 1` from `docling.py` line 215: `None` and the falsy `0`
both become page 1; every other integer (including negatives) is kept. -/
def pageOr1 : Option Int → Int
  | none => 1
  | some p => if p = 0 then 1 else p

/-- The chunk id `f"dl_{start_idx}_{len(chunks)}"` from `docling.py` line 214. -/
def dlChunkId (start_idx count : Nat) : Str :=
  str "dl_" ++ natStr start_idx ++ '_' :: natStr count

/-- The blank-line separator joining buffered spans (`"\n\n".join(buf)`). -/
def dlSep : Str := str "\n\n"

/-- The inner `flush` of `docling_to_chunks` (`docling.py` lines 208-215):
skip an empty buffer, strip the joined text, skip if blank, else append one
chunk whose id encodes the starting span index and the output position. -/
def flushChunks (chunks : List Chunk) (buf : List Str) (start_idx : Nat)
    (page : Option Int) (path : Option Str) : List Chunk :=
  if buf = [] then chunks
  else
    let text := pyStrip (pyJoin dlSep buf)
    if text = [] then chunks
    else chunks ++ [{ chunk_id := dlChunkId start_idx chunks.length,
                      page := pageOr1 page, text := text, section_hint := path }]

/-- Loop state of the merge/split loop of `docling_to_chunks` (lines 203-221).
The write-only `buf_pages`/`buf_paths` lists of the source are omitted: they are
appended to and reset but never read. -/
structure MState where
  chunks : List Chunk
  buf : List Str
  start : Nat
  cur_len : Nat
  current_path : Option Str
  current_page : Option Int
deriving DecidableEq, Repr

/-- Initial merge state (lines 203-220). -/
def initMState : MState :=
  { chunks := [], buf := [], start := 0, cur_len := 0,
    current_path := none, current_page := none }

/-- One iteration of the merge/split loop body of `docling_to_chunks`
(`docling.py` lines 222-254) at enumeration index `i` on span `sp`. -/
def mergeStep (max_chars overlap : Nat) (st : MState) (i : Nat) (sp : Span) : MState :=
  let st :=
    if st.buf = [] then
      { st with start := i, current_path := sp.path, current_page := sp.page }
    else st
  let st :=
    if sp.path ≠ st.current_path ∧ st.buf ≠ [] then
      { chunks := flushChunks st.chunks st.buf st.start st.current_page st.current_path,
        buf := [], start := i, cur_len := 0,
        current_path := sp.path, current_page := sp.page }
    else st
  let st := { st with buf := st.buf ++ [sp.text],
                      cur_len := st.cur_len + sp.text.length }
  if max_chars ≤ st.cur_len then
    let chunks := flushChunks st.chunks st.buf st.start st.current_page st.current_path
    if 0 < overlap ∧ st.buf ≠ [] then
      let tl := takeLast overlap (pyJoin dlSep st.buf)
      { chunks := chunks, buf := [tl], start := i, cur_len := tl.length,
        current_path := sp.path, current_page := sp.page }
    else
      { chunks := chunks, buf := [], start := i, cur_len := 0,
        current_path := sp.path, current_page := sp.page }
  else st

/-- The `for i, (t, p, path) in enumerate(spans)` loop of `docling_to_chunks`. -/
def mergeLoop (max_chars overlap : Nat) : Nat → MState → List Span → MState
  | _, st, [] => st
  | i, st, sp :: rest =>
    mergeLoop max_chars overlap (i + 1) (mergeStep max_chars overlap st i sp) rest

/-- The merge/split algorithm of `docling_to_chunks` over an ordered span
sequence (`docling.py` lines 202-257): run the loop, then final flush. -/
def mergeSpans (max_chars overlap : Nat) (spans : List Span) : List Chunk :=
  let st := mergeLoop max_chars overlap 0 initMState spans
  flushChunks st.chunks st.buf st.start st.current_page st.current_path

/-- A span text is clean when it is non-empty and strip-invariant, as every
paragraph span produced by `_iter_text_nodes` is. -/
def CleanTxt (s : Str) : Prop := s ≠ [] ∧ pyStrip s = s

/-- Ceiling division `ceil (l / m)` on naturals. -/
def ceilDiv (l m : Nat) : Nat := (l + m - 1) / m

instance cleanTxtDecidable (s : Str) : Decidable (CleanTxt s) :=
  decidable_of_iff (s ≠ [] ∧ pyStrip s = s) Iff.rfl

/-- Loop invariant for the merge/split loop when all spans share section path
`p` and are clean. -/
structure MergeInv (max_chars : Nat) (p : Option Str) (st : MState) : Prop where
  bufClean : ∀ b ∈ st.buf, CleanTxt b
  curLen : st.cur_len = (st.buf.map List.length).sum
  curLt : st.cur_len < max_chars
  pathEq : st.buf ≠ [] → st.current_path = p

/-- A tagged chunk of the instrumented merge loop: the emitted chunk, the raw
(unstripped) join of the buffer it was flushed from, and whether the flush was
caused by reaching `max_chars` (as opposed to a section-path change or the
final flush). -/
structure TChunk where
  chunk : Chunk
  raw : Str
  byLen : Bool
deriving DecidableEq, Repr

/-- Instrumented loop state, mirroring `MState` with tagged chunks. -/
structure MStateI where
  chunks : List TChunk
  buf : List Str
  start : Nat
  cur_len : Nat
  current_path : Option Str
  current_page : Option Int
deriving DecidableEq, Repr

/-- Instrumented `flush`: identical to `flushChunks` but records the raw joined
buffer and the flush cause on the emitted chunk. -/
def flushChunksI (chunks : List TChunk) (buf : List Str) (start_idx : Nat)
    (page : Option Int) (path : Option Str) (byLen : Bool) : List TChunk :=
  if buf = [] then chunks
  else
    let raw := pyJoin dlSep buf
    let text := pyStrip raw
    if text = [] then chunks
    else chunks ++ [{ chunk := { chunk_id := dlChunkId start_idx chunks.length,
                                 page := pageOr1 page, text := text, section_hint := path },
                      raw := raw, byLen := byLen }]

/-- Instrumented loop body, identical to `mergeStep` modulo tagging. -/
def mergeStepI (max_chars overlap : Nat) (st : MStateI) (i : Nat) (sp : Span) : MStateI :=
  let st :=
    if st.buf = [] then
      { st with start := i, current_path := sp.path, current_page := sp.page }
    else st
  let st :=
    if sp.path ≠ st.current_path ∧ st.buf ≠ [] then
      { chunks := flushChunksI st.chunks st.buf st.start st.current_page st.current_path false,
        buf := [], start := i, cur_len := 0,
        current_path := sp.path, current_page := sp.page }
    else st
  let st := { st with buf := st.buf ++ [sp.text],
                      cur_len := st.cur_len + sp.text.length }
  if max_chars ≤ st.cur_len then
    let chunks := flushChunksI st.chunks st.buf st.start st.current_page st.current_path true
    if 0 < overlap ∧ st.buf ≠ [] then
      let tl := takeLast overlap (pyJoin dlSep st.buf)
      { chunks := chunks, buf := [tl], start := i, cur_len := tl.length,
        current_path := sp.path, current_page := sp.page }
    else
      { chunks := chunks, buf := [], start := i, cur_len := 0,
        current_path := sp.path, current_page := sp.page }
  else st

/-- Instrumented enumeration loop. -/
def mergeLoopI (max_chars overlap : Nat) : Nat → MStateI → List Span → MStateI
  | _, st, [] => st
  | i, st, sp :: rest =>
    mergeLoopI max_chars overlap (i + 1) (mergeStepI max_chars overlap st i sp) rest

/-- Instrumented merge/split run: tagged chunks of `mergeSpans`. -/
def mergeSpansI (max_chars overlap : Nat) (spans : List Span) : List TChunk :=
  let st := mergeLoopI max_chars overlap 0
    { chunks := [], buf := [], start := 0, cur_len := 0,
      current_path := none, current_page := none } spans
  flushChunksI st.chunks st.buf st.start st.current_page st.current_path false

/-- Erasure of the instrumented state to the plain merge state. -/
def eraseSt (st : MStateI) : MState :=
  { chunks := st.chunks.map fun tc => tc.chunk, buf := st.buf, start := st.start,
    cur_len := st.cur_len, current_path := st.current_path,
    current_page := st.current_page }

/-- The initial instrumented state. -/
def initMStateI : MStateI :=
  { chunks := [], buf := [], start := 0, cur_len := 0,
    current_path := none, current_page := none }

/-- A string is right-clean when it has no trailing whitespace. -/
def RightClean (s : Str) : Prop := pyStripRight s = s

/-- The amended overlap link between consecutive tagged chunks: when the left
chunk was flushed by reaching `max_chars`, the trailing `overlap` characters of
its raw buffer join, with leading whitespace removed, begin the next chunk's
text. -/
def Link (overlap : Nat) (a b : TChunk) : Prop :=
  a.byLen = true → pyStripLeft (takeLast overlap a.raw) <+: b.chunk.text

/-- Per-chunk facts of the instrumented run: the chunk text is the strip of its
raw buffer join, which is right-clean and non-empty. -/
def TFacts (tc : TChunk) : Prop :=
  tc.chunk.text = pyStrip tc.raw ∧ RightClean tc.raw ∧ tc.raw ≠ []

/-- Invariant of the instrumented merge loop (clean spans, positive overlap). -/
structure OInv (overlap : Nat) (st : MStateI) : Prop where
  chain : List.Chain' (Link overlap) st.chunks
  facts : ∀ tc ∈ st.chunks, TFacts tc
  bufOk : st.buf = [] ∨
    ∃ b bs, st.buf = b :: bs ∧ b ≠ [] ∧ RightClean b ∧ (∀ x ∈ bs, CleanTxt x)
  pend : ∀ tc, st.chunks.getLast? = some tc → tc.byLen = true →
    ∃ bs2, st.buf = takeLast overlap tc.raw :: bs2

/-- Extract the decimal suffix after the last underscore of an id. -/
def idSuffix (s : Str) : Str := (s.reverse.takeWhile fun c => c ≠ '_').reverse

/-- Extract the segment before the first underscore of an id. -/
def idBefore (s : Str) : Str := s.takeWhile fun c => c ≠ '_'

/-- Whether an optional page value from the parsed structure is absent or
non-negative (the condition under which `page or 1` yields a page `≥ 1`). -/
def PageOk (pg : Option Int) : Prop := pg = none ∨ ∃ p, pg = some p ∧ 0 ≤ p

instance pageOkDecidable (pg : Option Int) : Decidable (PageOk pg) := by
  unfold PageOk
  cases pg with
  | none => exact Decidable.isTrue (Or.inl rfl)
  | some p =>
    by_cases hp : 0 ≤ p
    · exact Decidable.isTrue (Or.inr ⟨p, rfl, hp⟩)
    · refine Decidable.isFalse ?_
      rintro (h | ⟨q, hq, hq2⟩)
      · exact Option.noConfusion h
      · injection hq with hpq
        exact hp (by omega)

/-- General invariant of the merge/split loop (any overlap, arbitrary section
paths): emitted texts are non-blank and strip-invariant, pages are `≥ 1`, and
the chunk at output position `j` carries id `dl_{s}_{j}` for some start `s`. -/
structure GInv (st : MState) : Prop where
  texts : ∀ c ∈ st.chunks, c.text ≠ [] ∧ pyStrip c.text = c.text
  pages : ∀ c ∈ st.chunks, 1 ≤ c.page
  ids : ∀ j (h : j < st.chunks.length), ∃ s, (st.chunks.get ⟨j, h⟩).chunk_id = dlChunkId s j
  curPage : PageOk st.current_page

mutual
/-- JSON-like values of the parsed document structure (`_docling_to_json`
output), as a mutual inductive so that every traversal below is structural
(and so kernel-evaluable).  `JsonList`/`JsonObj` are isomorphic to
`List JsonVal` / `List (String × JsonVal)` via `toList`.  Numeric JSON values
are modelled as integers; the claims do not involve floating point. -/
inductive JsonVal where
  | null
  | bool (b : Bool)
  | int (n : Int)
  | str (s : Str)
  | arr (xs : JsonList)
  | obj (kvs : JsonObj)

inductive JsonList where
  | nil
  | cons (hd : JsonVal) (tl : JsonList)

inductive JsonObj where
  | nil
  | cons (k : String) (v : JsonVal) (tl : JsonObj)
end


/-- The items of a JSON array. -/
def JsonList.toList : JsonList → List JsonVal
  | .nil => []
  | .cons x t => x :: t.toList

/-- The key/value pairs of a JSON object, in insertion order. -/
def JsonObj.toList : JsonObj → List (String × JsonVal)
  | .nil => []
  | .cons k v t => (k, v) :: t.toList

/-- Build a JSON array value from a list (for concrete inputs). -/
def jarr : List JsonVal → JsonList
  | [] => .nil
  | x :: t => .cons x (jarr t)

/-- Build a JSON object value from an association list (for concrete inputs). -/
def jobj : List (String × JsonVal) → JsonObj
  | [] => .nil
  | kv :: t => .cons kv.1 kv.2 (jobj t)

/-- Model of `obj.get(k)` / `obj[k]` on a JSON object. -/
def jGet (kvs : List (String × JsonVal)) (k : String) : Option JsonVal :=
  (kvs.find? fun kv => kv.1 == k).map fun kv => kv.2

/-- Model of `k in obj`. -/
def jHas (kvs : List (String × JsonVal)) (k : String) : Bool :=
  kvs.any fun kv => kv.1 == k

/-- Python truthiness of a JSON value (`c or ""` uses it). -/
def pyFalsy : JsonVal → Bool
  | .null => true
  | .bool b => !b
  | .int n => n == 0
  | .str s => s.isEmpty
  | .arr xs => xs.toList.isEmpty
  | .obj kvs => kvs.toList.isEmpty

mutual
/-- Model of Python `str(v)` / `repr(v)` for a JSON value (the Bool selects
`repr` rendering, used inside containers).  String escape sequences of Python
`repr` are not modelled: no claim inspects the rendering of nested
containers. -/
def pyStrV : Bool → JsonVal → Str
  | _, .null => str "None"
  | _, .bool b => if b then str "True" else str "False"
  | _, .int n => intStr n
  | isRepr, .str s => if isRepr then '\'' :: (s ++ ['\'']) else s
  | _, .arr xs => '[' :: pyJoin (str ", ") (pyStrList xs) ++ [']']
  | _, .obj kvs => '\x7b' :: pyJoin (str ", ") (pyStrObj kvs) ++ ['\x7d']

def pyStrList : JsonList → List Str
  | .nil => []
  | .cons x t => pyStrV true x :: pyStrList t

def pyStrObj : JsonObj → List Str
  | .nil => []
  | .cons k v t => ('\'' :: (str k ++ ['\'']) ++ str ": " ++ pyStrV true v) :: pyStrObj t
end


/-- Model of Python `str(v)` for a JSON value. -/
def pyStr (v : JsonVal) : Str := pyStrV false v

/-- First of the given keys whose value is a non-blank string, stripped
(the `title`/`heading`/`name` and `caption`/`alt`/`title` probes). -/
def strKeyAt (kvs : List (String × JsonVal)) (k : String) : Option Str :=
  match jGet kvs k with
  | some (.str s) => if pyStrip s = [] then none else some (pyStrip s)
  | _ => none

/-- The section title probe of `_iter_text_nodes` (keys `title`, `heading`,
`name`, in order). -/
def titleOf (kvs : List (String × JsonVal)) : Option Str :=
  (strKeyAt kvs "title").orElse fun _ =>
    (strKeyAt kvs "heading").orElse fun _ => strKeyAt kvs "name"

/-- An integer-valued key probe (Python `isinstance(v, int)` also accepts
booleans, which are integers in Python). -/
def intKeyAt (kvs : List (String × JsonVal)) (k : String) : Option Int :=
  match jGet kvs k with
  | some (.int n) => some n
  | some (.bool b) => some (if b then 1 else 0)
  | _ => none

/-- The page probe of the paragraph branch (keys `page`, `page_no`,
`page_index`, `pageNumber`, in order). -/
def pageOf (kvs : List (String × JsonVal)) : Option Int :=
  (intKeyAt kvs "page").orElse fun _ =>
    (intKeyAt kvs "page_no").orElse fun _ =>
      (intKeyAt kvs "page_index").orElse fun _ => intKeyAt kvs "pageNumber"

/-- Breadcrumb path of the current section stack (`" > ".join` or `None`). -/
def pathOf (stack : List Str) : Option Str :=
  if stack = [] then none else some (pyJoin (str " > ") stack)

/-- The paragraph branch of `_iter_text_nodes` (docling.py lines 135-143). -/
def textYield (kvs : List (String × JsonVal)) (stack : List Str) : List Span :=
  match jGet kvs "text" with
  | some (.str s) =>
    if pyStrip s = [] then []
    else [{ text := pyStrip s, page := pageOf kvs, path := pathOf stack }]
  | _ => []

/-- One table cell rendered by `str(c or "").strip()`. -/
def cellStr (c : JsonVal) : Str :=
  pyStrip (pyStr (if pyFalsy c then .str [] else c))

/-- Whether `obj.get("type")` equals the given string. -/
def isTypeStr (kvs : List (String × JsonVal)) (t : Str) : Bool :=
  match jGet kvs "type" with
  | some (.str s) => s == t
  | _ => false

/-- The table branch of `_iter_text_nodes` (lines 146-158): rows that are
lists render as pipe-joined cells; a non-list `cells` value produces nothing
(iterating a dict or string yields no list rows; a non-iterable raises
`TypeError`, swallowed by the `except`). -/
def tableYield (kvs : List (String × JsonVal)) (stack : List Str) : List Span :=
  if isTypeStr kvs (str "table") && jHas kvs "cells" then
    match jGet kvs "cells" with
    | some (.arr rows) =>
      let lines := rows.toList.filterMap fun r =>
        match r with
        | .arr cs => some (pyJoin (str " | ") (cs.toList.map cellStr))
        | _ => none
      if lines = [] then []
      else [{ text := pyJoin (str "\n") lines, page := intKeyAt kvs "page",
              path := if stack = [] then some (str "Table")
                      else some (pyJoin (str " > ") stack) }]
    | _ => []
  else []

/-- The figure/image branch of `_iter_text_nodes` (lines 161-171). -/
def figureYield (kvs : List (String × JsonVal)) (stack : List Str) : List Span :=
  if isTypeStr kvs (str "figure") || isTypeStr kvs (str "image") then
    match (strKeyAt kvs "caption").orElse fun _ =>
        (strKeyAt kvs "alt").orElse fun _ => strKeyAt kvs "title" with
    | some cap =>
      [{ text := cap, page := intKeyAt kvs "page",
         path := if stack = [] then some (str "Figure")
                 else some (pyJoin (str " > ") stack) }]
    | none => []
  else []

mutual
/-- Generic walker `_iter_text_nodes` over the JSON-like structure
(docling.py lines 115-183).  A dict pushes its title for the duration of its
subtree, yields its paragraph, table and figure spans in that order, then
recurses into all values in insertion order; a list recurses into its items;
scalars yield nothing. -/
def iterTextNodes : JsonVal → List Str → List Span
  | .obj kvs, stack =>
    let l := kvs.toList
    let stack' := match titleOf l with
      | some t => stack ++ [t]
      | none => stack
    textYield l stack' ++ tableYield l stack' ++ figureYield l stack'
      ++ iterObjVals kvs stack'
  | .arr xs, stack => iterListItems xs stack
  | _, _ => []

def iterListItems : JsonList → List Str → List Span
  | .nil, _ => []
  | .cons x t, stack => iterTextNodes x stack ++ iterListItems t stack

def iterObjVals : JsonObj → List Str → List Span
  | .nil, _ => []
  | .cons _ v t, stack => iterTextNodes v stack ++ iterObjVals t stack
end


/-- `docling_to_chunks` (docling.py lines 186-257): `raw = none` models
`_docling_to_json` returning `None` (unparseable root), in which case one
chunk holds the whole stringified input `docStr = str(doc)`; otherwise the
walker's non-empty span texts feed the merge/split loop.  Source defaults:
`max_chars = 2500`, `overlap = 200`. -/
def docling_to_chunks (raw : Option JsonVal) (docStr : Str)
    (max_chars : Nat := 2500) (overlap : Nat := 200) : List Chunk :=
  match raw with
  | none => [{ chunk_id := str "dl_0", page := 1, text := docStr, section_hint := none }]
  | some j =>
    let spans := (iterTextNodes j []).filter fun sp => !sp.text.isEmpty
    mergeSpans max_chars overlap spans

/-! ## Index store (src/backend/services/index_store.py)

The filesystem is modelled as a store of files keyed by
(index_root, safe id, file name); `FS.write` shadows earlier entries and
`FS.read` returns the newest.  A file's content is either a serialized chunk
list (`chunks.json`) or a FAISS flat index, of which only the vector count
(`ntotal`) and dimensionality matter here.  `np.array` of a list of lists has
a second shape component exactly when the list is non-empty and rectangular;
otherwise `vecs.shape[1]` (or the array construction itself) raises, modelled
by `npShape2 = none`. -/

def safe_id (tender_id : Str) : Str :=
  (tender_id.map fun c => if c = '/' then '_' else c).map
    fun c => if c = '\\' then '_' else c

/-- Content of a stored file: serialized chunk metadata or a FAISS index
(vector count and dimension). -/
inductive FileData where
  | chunksJson (cs : List Chunk)
  | faissIndex (ntotal : Nat) (dim : Nat)
  deriving DecidableEq, Repr

structure FS where
  files : List ((Str × Str × Str) × FileData)
  deriving DecidableEq, Repr

def FS.write (fs : FS) (k : Str × Str × Str) (d : FileData) : FS :=
  ⟨(k, d) :: fs.files⟩

def FS.read (fs : FS) (k : Str × Str × Str) : Option FileData :=
  (fs.files.find? fun p => p.1 = k).map Prod.snd

/-- `np.array(embeddings, dtype="float32").shape[1]`: defined only for a
non-empty rectangular nested list; empty input gives a 1-d shape (so `shape[1]`
raises IndexError) and ragged input fails array construction. -/
def npShape2 (embeddings : List (List Int)) : Option Nat :=
  match embeddings with
  | [] => none
  | v :: rest => if rest.all fun w => w.length = v.length then some v.length else none

/-- `save_index` (index_store.py lines 15-38).  Returns the final filesystem
and whether the call raised.  The chunk metadata is written first,
unconditionally; the FAISS index is built and written afterwards with no
comparison of `len(embeddings)` against `len(chunks)`. -/
def save_index (fs : FS) (index_root tender_id : Str) (chunks : List Chunk)
    (embeddings : List (List Int)) : FS × Bool :=
  let sid := safe_id tender_id
  let fs1 := fs.write (index_root, sid, str "chunks.json") (FileData.chunksJson chunks)
  match npShape2 embeddings with
  | none => (fs1, true)
  | some dim =>
      (fs1.write (index_root, sid, str "index.faiss")
        (FileData.faissIndex embeddings.length dim), false)

inductive LoadErr where
  | fileNotFound
  | other
  deriving DecidableEq, Repr

/-- `load_index` (index_store.py lines 41-55): raise FileNotFoundError when
either file is missing, else parse and return the pair, with no validation of
the chunk count against the index size. -/
def load_index (fs : FS) (index_root tender_id : Str) :
    Except LoadErr (List Chunk × Nat × Nat) :=
  let sid := safe_id tender_id
  match fs.read (index_root, sid, str "chunks.json"),
        fs.read (index_root, sid, str "index.faiss") with
  | none, _ => Except.error LoadErr.fileNotFound
  | _, none => Except.error LoadErr.fileNotFound
  | some (FileData.chunksJson cs), some (FileData.faissIndex n d) =>
      Except.ok (cs, n, d)
  | some _, some _ => Except.error LoadErr.other

/-! ## Retriever fallback (src/backend/services/retriever.py)

`SimpleRetriever.query`'s `except` branch: `sorted(self.chunks,
key=lambda c: len(c.text), reverse=True)` — a stable descending sort by text
length (modelled by the stable `List.mergeSort`) — truncated to `top_k`, each
chunk paired with the constant score 1.0 (floats carry no arithmetic here, so
the score is modelled as the integer 1). -/

def lenDesc (a b : Chunk) : Bool := decide (b.text.length ≤ a.text.length)

def SimpleRetriever_query_fallback (chunks : List Chunk) (top_k : Nat) :
    List (Chunk × Int) :=
  ((chunks.mergeSort lenDesc).take top_k).map fun c => (c, 1)

/-! ## Summarizer (src/backend/services/summarizer.py) and the Groq adapter
(src/backend/adapters/llm_groq.py)

A summary record is a Python dict with the seven fixed `SUMMARY_FIELDS` keys,
modelled as a structure; a scalar field holds `None` or a string and
`compliance_notes` holds `None` or a list of strings.  `json.loads` and the
Groq SDK call are external collaborators: `json.loads` is a parameter
`jloads : Str → Option JsonVal` (`none` = raises), and the chat completion
outcome is a parameter `resp : Option (Option Str)` (`none` = the SDK raised,
`some c` = it returned a message whose content is `c`, itself `None` or a
string).  Dicts parsed by `json.loads` have unique keys, so an association
list with first-match lookup models them. -/

structure Summary where
  tender_name : Option Str
  issuer : Option Str
  emd_amount : Option Str
  location : Option Str
  duration : Option Str
  scope_of_work : Option Str
  compliance_notes : Option (List Str)
  deriving DecidableEq, Repr

/-- `{k: None for k in SUMMARY_FIELDS}`. -/
def emptySummary : Summary :=
  { tender_name := none, issuer := none, emd_amount := none, location := none,
    duration := none, scope_of_work := none, compliance_notes := none }

def isNull : JsonVal → Bool
  | .null => true
  | _ => false

/-- The scalar branch of `_coerce_summary` (summarizer.py lines 94-98):
`v = d.get(k)` is `None` when the key is missing or its value is JSON null,
and the field is then `None`; otherwise `str(v)`. -/
def coerceScalar (kvs : List (String × JsonVal)) (k : String) : Option Str :=
  match jGet kvs k with
  | none => none
  | some .null => none
  | some v => some (pyStr v)

/-- The `compliance_notes` branch (summarizer.py lines 88-93): a list value
becomes `[str(x) for x in v if x is not None]`; anything else becomes `[]`. -/
def coerceNotes (kvs : List (String × JsonVal)) : List Str :=
  match jGet kvs "compliance_notes" with
  | some (.arr xs) => (xs.toList.filter fun x => !isNull x).map pyStr
  | _ => []

/-- `_coerce_summary` (summarizer.py lines 82-99). -/
def coerce_summary (d : JsonVal) : Summary :=
  match d with
  | .obj o =>
      let kvs := o.toList
      { tender_name := coerceScalar kvs "tender_name",
        issuer := coerceScalar kvs "issuer",
        emd_amount := coerceScalar kvs "emd_amount",
        location := coerceScalar kvs "location",
        duration := coerceScalar kvs "duration",
        scope_of_work := coerceScalar kvs "scope_of_work",
        compliance_notes := some (coerceNotes kvs) }
  | _ => emptySummary

/-- A field value counts as empty when it is `in (None, [], "")`. -/
def optStrEmpty : Option Str → Bool
  | none => true
  | some s => s.isEmpty

/-- `_is_effectively_empty` (summarizer.py lines 116-120): no field holds a
value outside `(None, [], "")`.  The records reaching it always carry the
seven keys, so the `if not d` check never fires. -/
def is_effectively_empty (s : Summary) : Bool :=
  optStrEmpty s.tender_name && optStrEmpty s.issuer && optStrEmpty s.emd_amount &&
  optStrEmpty s.location && optStrEmpty s.duration && optStrEmpty s.scope_of_work &&
  (match s.compliance_notes with
   | none => true
   | some l => l.isEmpty)

/-- `GroqLLM.complete` (llm_groq.py lines 11-27): on any exception from the
SDK call the literal string `"Not found in tender"` is returned; on success
the message content, with `None` collapsed to `""` by `content or ""`. -/
def GroqLLM_complete (resp : Option (Option Str)) : Str :=
  match resp with
  | none => str "Not found in tender"
  | some none => []
  | some (some c) => c

/-- The closing scan of the fenced-block regex: `[\s\S]*?` lazily extends the
group body until a `\}` followed by `\s*` and a closing fence matches, so the
first `\x7d` whose tail (after maximal whitespace, the only split the
backtracking can accept since a backtick is not whitespace) starts with three
backticks ends the group. -/
def lazyBody : Str → Option Str
  | [] => none
  | c :: rest =>
      if c = '\x7d' ∧ (pyStripLeft rest).take 3 = str "\x60\x60\x60" then some ['\x7d']
      else (lazyBody rest).map fun b => c :: b

/-- One attempt of the fence regex at a fixed position: the opening fence and
tag (case-insensitively, braces and backticks unaffected by case), `\s*`, then
the braced group. -/
def fenceTry (s : Str) : Option Str :=
  if (s.take 7).map Char.toLower = str "\x60\x60\x60json" then
    match pyStripLeft (s.drop 7) with
    | '\x7b' :: body => (lazyBody body).map fun b => '\x7b' :: b
    | _ => none
  else none

/-- Leftmost search of `re.search` applied to the fence pattern of
`_extract_json_block` (summarizer.py line 65). -/
def fenceSearch : Str → Option Str
  | [] => none
  | c :: rest =>
      match fenceTry (c :: rest) with
      | some g => some g
      | none => fenceSearch rest

/-- `text.find("\x7b")` and the suffix from it. -/
def findBrace : Str → Option Str
  | [] => none
  | c :: rest => if c = '\x7b' then some (c :: rest) else findBrace rest

/-- The depth-counting scan of `_extract_json_block` (summarizer.py lines
72-79), started on the suffix at the first opening brace. -/
def braceLoop (depth : Int) (acc : Str) : Str → Option Str
  | [] => none
  | c :: rest =>
      if c = '\x7b' then braceLoop (depth + 1) (acc ++ [c]) rest
      else if c = '\x7d' then
        if depth - 1 = 0 then some (acc ++ [c]) else braceLoop (depth - 1) (acc ++ [c]) rest
      else braceLoop depth (acc ++ [c]) rest

/-- `_extract_json_block` (summarizer.py lines 58-80). -/
def extract_json_block (text : Str) : Option Str :=
  if text = [] then none
  else match fenceSearch text with
  | some g => some g
  | none => (findBrace text).bind (braceLoop 0 [])

/-! ### A small regex engine for the heuristic extractor

The patterns of `extract_summary_rules` use only literals, character classes
with `*`/`+`/`?`/`{lo,hi}` repetition (always greedy), ordered alternation,
optional pieces, capture groups and word boundaries — no quantified
subexpression that can match more than one way — so a structural backtracking
matcher suffices.  `rxResults` returns every way a pattern can match a prefix
of the input, in backtracking preference order (greedy repetitions longest
first, alternatives left first); `rxSearch` takes the first result at the
leftmost matching position, which is exactly the `re.search` match.  All the
source patterns carry `re.IGNORECASE`, so literals compare case-insensitively;
classes receive their predicate explicitly. -/

inductive Rx where
  | lit (l : Str)
  | clsRep (p : Char → Bool) (lo : Nat) (hi : Option Nat)
  | seq (a b : Rx)
  | alt (a b : Rx)
  | opt (a : Rx)
  | grp (i : Nat) (a : Rx)
  | wb

/-- Python `\w` (ASCII range; the scanned tender texts are ASCII-ish). -/
def isWordChar (c : Char) : Bool := c.isAlphanum || c = '_'

/-- A `\b` boundary between the previous character and the start of `s`. -/
def atWordBoundary (prev : Option Char) (s : Str) : Bool :=
  (match prev with | none => false | some c => isWordChar c)
    != (match s with | [] => false | c :: _ => isWordChar c)

/-- The character preceding position `n` of `s` (or `prev` when `n = 0`). -/
def prevAt (prev : Option Char) (s : Str) (n : Nat) : Option Char :=
  match (s.take n).getLast? with
  | some c => some c
  | none => prev

/-- All (consumed length, captured groups) matches of `r` against a prefix of
`s`, in backtracking preference order. -/
def rxResults (r : Rx) (prev : Option Char) (s : Str) : List (Nat × List (Nat × Str)) :=
  match r with
  | .lit l =>
      if (s.take l.length).map Char.toLower = l.map Char.toLower
      then [(l.length, [])] else []
  | .clsRep p lo hi =>
      let run := (s.takeWhile p).length
      let top := match hi with | none => run | some h => min h run
      (((List.range (top + 1)).filter fun k => lo ≤ k).reverse).map fun k => (k, [])
  | .seq a b =>
      (rxResults a prev s).flatMap fun q =>
        (rxResults b (prevAt prev s q.1) (s.drop q.1)).map fun w =>
          (q.1 + w.1, q.2 ++ w.2)
  | .alt a b => rxResults a prev s ++ rxResults b prev s
  | .opt a => rxResults a prev s ++ [(0, [])]
  | .grp i a => (rxResults a prev s).map fun q => (q.1, (i, s.take q.1) :: q.2)
  | .wb => if atWordBoundary prev s then [(0, [])] else []

/-- `re.search`: the backtracking-preferred match at the leftmost position
where one exists; returns (group 0, captures). -/
def rxSearch (r : Rx) : Option Char → Str → Option (Str × List (Nat × Str))
  | prev, [] =>
      match rxResults r prev [] with
      | q :: _ => some ([], q.2)
      | [] => none
  | prev, c :: rest =>
      match rxResults r prev (c :: rest) with
      | q :: _ => some ((c :: rest).take q.1, q.2)
      | [] => rxSearch r (some c) rest

/-- `m.group(i)`: `none` when the group did not participate in the match. -/
def mGroup (caps : List (Nat × Str)) (i : Nat) : Option Str :=
  (caps.find? fun q => q.1 = i).map Prod.snd

/-- Python `str.splitlines` on the line terminators occurring in this
pipeline's texts (`\r\n`, `\n`, `\r`, `\v`, `\f`): segments between
terminators, without a trailing empty segment. -/
def splitLinesAux (cur : Str) : Str → List Str
  | [] => if cur = [] then [] else [cur.reverse]
  | '\r' :: '\n' :: rest => cur.reverse :: splitLinesAux [] rest
  | c :: rest =>
      if c = '\n' ∨ c = '\r' ∨ c = '\x0b' ∨ c = '\x0c'
      then cur.reverse :: splitLinesAux [] rest
      else splitLinesAux (c :: cur) rest

def splitLines (s : Str) : List Str := splitLinesAux [] s

/-- Python `str.strip(chars)` with an explicit character set. -/
def pyStripSet (cs : Str) (s : Str) : Str :=
  ((s.dropWhile fun c => c ∈ cs).reverse.dropWhile fun c => c ∈ cs).reverse

/-- `re.split(r"(?<=[.!?])\s+", snippet)`: split at each maximal whitespace
run whose preceding character is `.`, `!` or `?`. -/
def sentSplitAux (cur : Str) (prev : Option Char) : Str → List Str
  | [] => [cur.reverse]
  | c :: rest =>
      if pyIsSpace c ∧ (prev = some '.' ∨ prev = some '!' ∨ prev = some '?') then
        cur.reverse ::
          sentSplitAux [] (some ((rest.takeWhile pyIsSpace).getLastD c))
            (rest.dropWhile pyIsSpace)
      else sentSplitAux (c :: cur) (some c) rest
termination_by s => s.length
decreasing_by
  · have := (List.dropWhile_sublist (l := rest) (p := pyIsSpace)).length_le
    simp; omega
  · simp

def sentSplit (s : Str) : List Str := sentSplitAux [] none s

/-- The header filter `\b(page\s*\d+|table of contents)\b` of the tender-name
probe (summarizer.py line 141). -/
def badHeaderRx : Rx :=
  .seq .wb (.seq
    (.alt (.seq (.lit (str "page"))
            (.seq (.clsRep pyIsSpace 0 none) (.clsRep Char.isDigit 1 none)))
          (.lit (str "table of contents")))
    .wb)

/-- Tender name (summarizer.py lines 137-143): the first line whose stripped
form has length in `[6, 140]` and is not header-ish. -/
def tenderNameOf (text : Str) : Option Str :=
  (splitLines text).findSome? fun line =>
    let s := pyStrip line
    if 6 ≤ s.length ∧ s.length ≤ 140 ∧ (rxSearch badHeaderRx none s).isNone
    then some s else none

/-- The issuer pattern (summarizer.py line 147): an organization keyword, a
run of `[:\s,\-]`, then 3-80 non-newline characters. -/
def issuerRx : Rx :=
  .seq .wb (.seq
    (.alt (.lit (str "Corporation")) (.alt (.lit (str "Company"))
      (.alt (.lit (str "Department")) (.alt (.lit (str "Ministry"))
      (.alt (.lit (str "Government"))
      (.alt (.seq (.lit (str "Govt")) (.opt (.lit (str "."))))
      (.alt (.seq (.lit (str "Ltd")) (.opt (.lit (str "."))))
      (.alt (.lit (str "Limited")) (.alt (.lit (str "Authority"))
      (.alt (.lit (str "NMDC")) (.lit (str "BIOM"))))))))))))
    (.seq (.clsRep (fun c => c = ':' || pyIsSpace c || c = ',' || c = '-') 0 none)
      (.grp 1 (.clsRep (fun c => !(c = '\n')) 3 (some 80)))))

def issuerOf (text : Str) : Option Str :=
  (rxSearch issuerRx none text).map fun m => pyStrip m.1

/-- The EMD pattern (summarizer.py line 153):
`(?:EMD|Earnest Money(?: Deposit)?)[^\n:]*[:\-]?\s*`
`(₹|INR|Rs\.?|RUPEES)?\s*([\d,]+(?:\.\d{1,2})?)`. -/
def emdRx : Rx :=
  .seq (.alt (.lit (str "EMD"))
             (.seq (.lit (str "Earnest Money")) (.opt (.lit (str " Deposit")))))
  (.seq (.clsRep (fun c => !(c = '\n') && !(c = ':')) 0 none)
  (.seq (.clsRep (fun c => c = ':' || c = '-') 0 (some 1))
  (.seq (.clsRep pyIsSpace 0 none)
  (.seq (.opt (.grp 1 (.alt (.lit (str "₹")) (.alt (.lit (str "INR"))
          (.alt (.seq (.lit (str "Rs")) (.opt (.lit (str "."))))
                (.lit (str "RUPEES")))))))
  (.seq (.clsRep pyIsSpace 0 none)
    (.grp 2 (.seq (.clsRep (fun c => c.isDigit || c = ',') 1 none)
      (.opt (.seq (.lit (str ".")) (.clsRep Char.isDigit 1 (some 2)))))))))))

def emdOf (text : Str) : Option Str :=
  (rxSearch emdRx none text).map fun m =>
    let cur := (mGroup m.2 1).getD []
    let val := (mGroup m.2 2).getD []
    pyStrip (cur ++ [' '] ++ val)

/-- The duration pattern (summarizer.py line 161):
`(?:Duration|Period)[^\n:]*[:\-]?\s*([\d]+\s*(?:day|month|year)s?)`. -/
def durationRx : Rx :=
  .seq (.alt (.lit (str "Duration")) (.lit (str "Period")))
  (.seq (.clsRep (fun c => !(c = '\n') && !(c = ':')) 0 none)
  (.seq (.clsRep (fun c => c = ':' || c = '-') 0 (some 1))
  (.seq (.clsRep pyIsSpace 0 none)
    (.grp 1 (.seq (.clsRep Char.isDigit 1 none)
      (.seq (.clsRep pyIsSpace 0 none)
      (.seq (.alt (.lit (str "day")) (.alt (.lit (str "month")) (.lit (str "year"))))
        (.opt (.lit (str "s"))))))))))

def durationOf (text : Str) : Option Str :=
  (rxSearch durationRx none text).bind fun m => mGroup m.2 1

/-- The location pattern (summarizer.py line 167):
`(?:Location|Place of work)[^\n:]*[:\-]?\s*([^\n]{3,80})`. -/
def locationRx : Rx :=
  .seq (.alt (.lit (str "Location")) (.lit (str "Place of work")))
  (.seq (.clsRep (fun c => !(c = '\n') && !(c = ':')) 0 none)
  (.seq (.clsRep (fun c => c = ':' || c = '-') 0 (some 1))
  (.seq (.clsRep pyIsSpace 0 none)
    (.grp 1 (.clsRep (fun c => !(c = '\n')) 3 (some 80))))))

def locationOf (text : Str) : Option Str :=
  (rxSearch locationRx none text).bind fun m => (mGroup m.2 1).map pyStrip

/-- The scope pattern (summarizer.py line 173):
`Scope of Work[\s\-:]*([\s\S]{0,500})`. -/
def scopeRx : Rx :=
  .seq (.lit (str "Scope of Work"))
  (.seq (.clsRep (fun c => pyIsSpace c || c = '-' || c = ':') 0 none)
    (.grp 1 (.clsRep (fun _ => true) 0 (some 500))))

/-- Scope of work (summarizer.py lines 172-178): the 500-character snippet,
stripped, cut at the second sentence, stripped and truncated to 300. -/
def scopeOf (text : Str) : Option Str :=
  (rxSearch scopeRx none text).map fun m =>
    let snippet := pyStrip ((mGroup m.2 1).getD [])
    let parts := sentSplit snippet
    (pyStrip (pyJoin (str " ") (parts.take 2))).take 300

/-- The compliance key terms (summarizer.py lines 182-184); each is a literal
pattern under `re.IGNORECASE`. -/
def keyTermsRx : List Rx :=
  [.lit (str "eligibility"), .lit (str "turnover"), .lit (str "experience"),
   .lit (str "bid security"), .lit (str "emd"), .lit (str "bank guarantee"),
   .lit (str "penalty"), .lit (str "liquidated damages")]

/-- The compliance-notes loop (summarizer.py lines 185-190): bullet-stripped
lines of length `[6, 160]` containing a key term, stopping at six. -/
def notesLoop : List Str → List Str → List Str
  | [], acc => acc
  | line :: rest, acc =>
      let s := pyStripSet (str " -*•\t") line
      if 6 ≤ s.length ∧ s.length ≤ 160 ∧
          (keyTermsRx.any fun t => (rxSearch t none s).isSome) then
        if 6 ≤ acc.length + 1 then acc ++ [s] else notesLoop rest (acc ++ [s])
      else notesLoop rest acc

/-- `extract_summary_rules` (summarizer.py lines 131-202). -/
def extract_summary_rules (chunks : List Chunk) : Summary × List Chunk :=
  let head_chunks := chunks.take 5
  let text := pyJoin (str "\n") (head_chunks.map fun c => c.text)
  ({ tender_name := tenderNameOf text,
     issuer := issuerOf text,
     emd_amount := emdOf text,
     location := locationOf text,
     duration := durationOf text,
     scope_of_work := scopeOf text,
     compliance_notes := some (notesLoop (splitLines text) []) },
   head_chunks)

/-- `extract_summary_groq` (summarizer.py lines 49-128), parameterized over
the `json.loads` collaborator and the completion outcome. -/
def extract_summary_groq (jloads : Str → Option JsonVal) (chunks : List Chunk)
    (resp : Option (Option Str)) : Summary × List Chunk :=
  if chunks = [] then (emptySummary, [])
  else
    let raw := GroqLLM_complete resp
    let parsed := fun (s : Str) =>
      match jloads s with
      | some d => coerce_summary d
      | none => emptySummary
    let summary :=
      match extract_json_block raw with
      | some json_str => if json_str ≠ [] then parsed json_str else parsed raw
      | none => parsed raw
    if is_effectively_empty summary then extract_summary_rules chunks
    else (summary, chunks.take 5)

theorem digitChar_toNat {n : Nat} (h : n < 10) : (digitChar n).toNat = 48 + n := by
  interval_cases n <;> decide

theorem digitChar_ne_underscore (n : Nat) : digitChar n ≠ '_' := by
  unfold digitChar
  split <;> decide

theorem digitChar_ne_dash (n : Nat) : digitChar n ≠ '-' := by
  unfold digitChar
  split <;> decide

theorem decDigits_append_digit (s : Str) (c : Char) :
    decDigits (s ++ [c]) = 10 * decDigits s + (c.toNat - 48) := by
  simp [decDigits, List.foldl_append]

theorem decDigits_natDigitsF : ∀ fuel n, n < fuel → decDigits (natDigitsF fuel n) = n := by
  intro fuel
  induction fuel with
  | zero => intro n h; omega
  | succ f ih =>
    intro n h
    unfold natDigitsF
    by_cases h10 : n < 10
    · simp only [if_pos h10]
      simp [decDigits, digitChar_toNat h10]
    · simp only [if_neg h10]
      rw [decDigits_append_digit]
      have hlt : n / 10 < f := by omega
      rw [ih (n / 10) hlt]
      have h9 : n % 10 < 10 := Nat.mod_lt _ (by omega)
      rw [digitChar_toNat h9]
      omega

theorem natStr_injective {m n : Nat} (h : natStr m = natStr n) : m = n := by
  have hm := decDigits_natDigitsF (m + 1) m (Nat.lt_succ_self m)
  have hn := decDigits_natDigitsF (n + 1) n (Nat.lt_succ_self n)
  simp only [natStr] at h
  rw [← hm, ← hn, h]

theorem natDigitsF_ne_underscore : ∀ fuel n, '_' ∉ natDigitsF fuel n := by
  intro fuel
  induction fuel with
  | zero => intro n h; simp [natDigitsF] at h
  | succ f ih =>
    intro n h
    unfold natDigitsF at h
    by_cases h10 : n < 10
    · simp only [if_pos h10, List.mem_singleton] at h
      exact digitChar_ne_underscore n h.symm
    · simp only [if_neg h10, List.mem_append, List.mem_singleton] at h
      rcases h with h | h
      · exact ih (n / 10) h
      · exact digitChar_ne_underscore (n % 10) h.symm

theorem natStr_ne_underscore (n : Nat) : '_' ∉ natStr n :=
  natDigitsF_ne_underscore (n + 1) n

theorem natDigitsF_ne_dash : ∀ fuel n, '-' ∉ natDigitsF fuel n := by
  intro fuel
  induction fuel with
  | zero => intro n h; simp [natDigitsF] at h
  | succ f ih =>
    intro n h
    unfold natDigitsF at h
    by_cases h10 : n < 10
    · simp only [if_pos h10, List.mem_singleton] at h
      exact digitChar_ne_dash n h.symm
    · simp only [if_neg h10, List.mem_append, List.mem_singleton] at h
      rcases h with h | h
      · exact ih (n / 10) h
      · exact digitChar_ne_dash (n % 10) h.symm

theorem intStr_ne_underscore (i : Int) : '_' ∉ intStr i := by
  unfold intStr
  split
  · intro h
    rcases List.mem_cons.mp h with h | h
    · exact absurd h (by decide)
    · exact natStr_ne_underscore _ h
  · exact natStr_ne_underscore _

theorem intStr_injective {i j : Int} (h : intStr i = intStr j) : i = j := by
  unfold intStr at h
  by_cases hi : i < 0 <;> by_cases hj : j < 0
  · simp only [if_pos hi, if_pos hj, List.cons.injEq] at h
    have := natStr_injective h.2
    omega
  · simp only [if_pos hi, if_neg hj] at h
    have : '-' ∈ natStr j.toNat := h ▸ List.mem_cons_self _ _
    exact absurd this (natDigitsF_ne_dash _ _)
  · simp only [if_neg hi, if_pos hj] at h
    have : '-' ∈ natStr i.toNat := h ▸ List.mem_cons_self _ _
    exact absurd this (natDigitsF_ne_dash _ _)
  · simp only [if_neg hi, if_neg hj] at h
    have := natStr_injective h
    omega

theorem pageLoop_fuel_sufficient (max_chars overlap : Nat) (page_num : Int)
    (text : Str) (hov : overlap < max_chars) :
    ∀ fuel start, text.length - start < fuel →
      (pageLoop max_chars overlap page_num text fuel start).isSome := by
  intro fuel
  induction fuel with
  | zero => intro start h; omega
  | succ f ih =>
    intro start h
    unfold pageLoop
    by_cases hs : start < text.length
    · simp only [if_pos hs]
      by_cases he : min text.length (start + max_chars) = text.length
      · simp [he]
      · simp only [if_neg he]
        have he2 : min text.length (start + max_chars) = start + max_chars := by omega
        have hrec : text.length - (min text.length (start + max_chars) - overlap) < f := by
          omega
        have := ih (min text.length (start + max_chars) - overlap) hrec
        cases hres : pageLoop max_chars overlap page_num text f
            (min text.length (start + max_chars) - overlap) with
        | none => rw [hres] at this; simp at this
        | some rest => simp [hres]
    · simp [hs]

/-- On a page longer than `max_chars` with `overlap = max_chars`, the window
start never advances: the loop runs forever (no fuel suffices). -/
theorem pageLoop_stuck : ∀ fuel, pageLoop 1 1 1 (str "ab") fuel 0 = none := by
  intro fuel
  induction fuel with
  | zero => decide
  | succ f ih =>
    have hstep : pageLoop 1 1 1 (str "ab") (f + 1) 0 =
        (match pageLoop 1 1 1 (str "ab") f 0 with
          | some rest => some ({ chunk_id := pChunkId 1 0, page := 1, text := str "a" } :: rest)
          | none => none) := rfl
    rw [hstep, ih]

/-- C10: for every list of (pageNumber, pageText) pairs, `simple_chunk_pages`
terminates provided `0 ≤ overlap < max_chars` (each inner-loop iteration either
ends the page or strictly advances the window start); the precondition is
necessary, since with `overlap ≥ max_chars` and a page text longer than
`max_chars` the window start does not advance.  Non-negativity of `overlap`
is inherent in the `Nat` model of the source's non-negative parameters. -/
theorem C10_simple_chunk_pages_termination (pages : List (Int × Str))
    (max_chars overlap : Nat) (hov : overlap < max_chars) :
    (simple_chunk_pages pages max_chars overlap).isSome ∧
      (∀ fuel, pageLoop 1 1 1 (str "ab") fuel 0 = none) := by
  constructor
  · unfold simple_chunk_pages
    have hpage : ∀ pg : Int × Str,
        (pageLoop max_chars overlap pg.1 pg.2 (pg.2.length + 1) 0).isSome := by
      intro pg
      exact pageLoop_fuel_sufficient max_chars overlap pg.1 pg.2 hov _ 0
        (Nat.lt_succ_of_le (Nat.sub_le _ _))
    induction pages with
    | nil => rfl
    | cons p ps ihp =>
      rw [List.mapM_cons]
      cases hp : pageLoop max_chars overlap p.1 p.2 (p.2.length + 1) 0 with
      | none => have := hpage p; rw [hp] at this; simp at this
      | some l =>
        cases hps : ps.mapM fun pg => pageLoop max_chars overlap pg.1 pg.2 (pg.2.length + 1) 0 with
        | none => rw [hps] at ihp; simp at ihp
        | some ls => simp [hp, hps]
  · exact pageLoop_stuck

/-- Witness for C10 at concrete input: two pages, `max_chars = 2`, `overlap = 1`. -/
theorem C10_simple_chunk_pages_termination_witness :
    (1 : Nat) < 2 ∧
      ((simple_chunk_pages [((1 : Int), str "abc"), (2, str "x")] 2 1).isSome ∧
        (∀ fuel, pageLoop 1 1 1 (str "ab") fuel 0 = none)) :=
  ⟨by decide, C10_simple_chunk_pages_termination [((1 : Int), str "abc"), (2, str "x")] 2 1
    (by decide)⟩

theorem mem_dropWhile_of_not {p : Char → Bool} {l : Str} {c : Char}
    (hc : c ∈ l) (hp : ¬ p c) : c ∈ l.dropWhile p := by
  have hsplit := List.takeWhile_append_dropWhile (p := p) (l := l)
  rw [← hsplit] at hc
  rcases List.mem_append.mp hc with h | h
  · exact absurd (List.mem_takeWhile_imp h) hp
  · exact h

theorem mem_pyStrip {s : Str} {c : Char} (hc : c ∈ s) (hp : ¬ pyIsSpace c) :
    c ∈ pyStrip s := by
  unfold pyStrip pyStripLeft pyStripRight
  apply mem_dropWhile_of_not _ hp
  rw [List.mem_reverse]
  apply mem_dropWhile_of_not _ hp
  rw [List.mem_reverse]
  exact hc

theorem cleanTxt_has_nonspace {s : Str} (h : CleanTxt s) : ∃ c ∈ s, ¬ pyIsSpace c := by
  by_contra hall
  push_neg at hall
  have hrev : s.reverse.dropWhile pyIsSpace = [] :=
    List.dropWhile_eq_nil_iff.mpr fun c hc => hall c (List.mem_reverse.mp hc)
  have hsr : pyStripRight s = [] := by
    unfold pyStripRight
    rw [hrev]
    rfl
  have : pyStrip s = [] := by
    unfold pyStrip
    rw [hsr]
    rfl
  exact h.1 (h.2 ▸ this)

theorem pyStrip_join_ne_nil {sep : Str} {bs : List Str} (hne : bs ≠ [])
    (hclean : ∀ b ∈ bs, CleanTxt b) : pyStrip (pyJoin sep bs) ≠ [] := by
  cases bs with
  | nil => exact absurd rfl hne
  | cons b rest =>
    obtain ⟨c, hcmem, hcw⟩ := cleanTxt_has_nonspace (hclean b (List.mem_cons_self _ _))
    have hcj : c ∈ pyJoin sep (b :: rest) := by
      cases rest with
      | nil => simpa [pyJoin] using hcmem
      | cons r rs =>
        show c ∈ b ++ sep ++ pyJoin sep (r :: rs)
        exact List.mem_append.mpr (Or.inl (List.mem_append.mpr (Or.inl hcmem)))
    intro hnil
    have := mem_pyStrip hcj hcw
    rw [hnil] at this
    exact absurd this (List.not_mem_nil c)

theorem flushChunks_nil (chunks : List Chunk) (start_idx : Nat) (pg : Option Int)
    (pth : Option Str) : flushChunks chunks [] start_idx pg pth = chunks := rfl

theorem flushChunks_emits {buf : List Str} (hb : buf ≠ [])
    (hs : pyStrip (pyJoin dlSep buf) ≠ []) (chunks : List Chunk) (start_idx : Nat)
    (pg : Option Int) (pth : Option Str) :
    flushChunks chunks buf start_idx pg pth =
      chunks ++ [{ chunk_id := dlChunkId start_idx chunks.length, page := pageOr1 pg,
                   text := pyStrip (pyJoin dlSep buf), section_hint := pth }] := by
  unfold flushChunks
  rw [if_neg hb, if_neg hs]

theorem MergeInv.buf_len_pos {max_chars : Nat} {p : Option Str} {st : MState}
    (h : MergeInv max_chars p st) (hb : st.buf ≠ []) : 1 ≤ st.cur_len := by
  rcases hbuf : st.buf with _ | ⟨b, rest⟩
  · exact absurd hbuf hb
  · have hbc := h.bufClean b (hbuf ▸ List.mem_cons_self _ _)
    have hb1 : 1 ≤ b.length := List.length_pos.mpr hbc.1
    have := h.curLen
    rw [hbuf] at this
    simp only [List.map_cons, List.sum_cons] at this
    omega

theorem mergeStep_zero_overlap (max_chars : Nat) (hmax : 1 ≤ max_chars)
    (p : Option Str) (st : MState) (i : Nat) (sp : Span)
    (hsp : sp.path = p) (hc : CleanTxt sp.text) (hinv : MergeInv max_chars p st) :
    MergeInv max_chars p (mergeStep max_chars 0 st i sp) ∧
    (mergeStep max_chars 0 st i sp).chunks.length * max_chars
        + (mergeStep max_chars 0 st i sp).cur_len
      ≤ st.chunks.length * max_chars + st.cur_len + sp.text.length ∧
    ((mergeStep max_chars 0 st i sp).chunks ≠ [] ∨ (mergeStep max_chars 0 st i sp).buf ≠ []) ∧
    (sp.text.length = 1 →
      (mergeStep max_chars 0 st i sp).cur_len = (st.cur_len + 1) % max_chars ∧
      (mergeStep max_chars 0 st i sp).chunks.length
        = st.chunks.length + (st.cur_len + 1) / max_chars) := by
  by_cases hbuf : st.buf = []
  · -- empty buffer: start/current reset to this span, no path flush
    have hcur0 : st.cur_len = 0 := by
      have := hinv.curLen
      rw [hbuf] at this
      simpa using this
    have hstep : mergeStep max_chars 0 st i sp =
        (let st3 : MState :=
          { chunks := st.chunks, buf := [sp.text], start := i,
            cur_len := st.cur_len + sp.text.length,
            current_path := sp.path, current_page := sp.page }
         if max_chars ≤ st3.cur_len then
           { chunks := flushChunks st.chunks [sp.text] i sp.page sp.path, buf := [],
             start := i, cur_len := 0, current_path := sp.path, current_page := sp.page }
         else st3) := by
      simp [mergeStep, hbuf]
    by_cases hlen : max_chars ≤ st.cur_len + sp.text.length
    · have hflush := @flushChunks_emits [sp.text] (by simp)
        (pyStrip_join_ne_nil (by simp) (by simpa using hc)) st.chunks i sp.page sp.path
      rw [hstep]
      simp only [if_pos hlen, hflush]
      refine ⟨⟨by simp, by simp, by simpa using hmax, by simp⟩, ?_, ?_, ?_⟩
      · simp only [List.length_append, List.length_cons, List.length_nil, Nat.add_mul,
          Nat.one_mul]
        omega
      · left; simp
      · intro h1
        rw [h1] at hlen
        have hmx : st.cur_len + 1 = max_chars := by omega
        refine ⟨?_, ?_⟩
        · simp only [hmx, Nat.mod_self]
        · simp only [List.length_append, List.length_cons, List.length_nil, hmx,
            Nat.div_self (show 0 < max_chars by omega)]
    · rw [hstep]
      simp only [if_neg hlen]
      refine ⟨⟨by simpa using hc, by simp [hcur0],
        by show st.cur_len + sp.text.length < max_chars; omega, fun _ => hsp⟩,
        by omega, by simp, ?_⟩
      intro h1
      rw [h1] at hlen
      refine ⟨?_, ?_⟩
      · simp only [h1]
        exact (Nat.mod_eq_of_lt (by omega)).symm
      · simp only [h1, Nat.div_eq_of_lt (show st.cur_len + 1 < max_chars by omega),
          Nat.add_zero]
  · -- nonempty buffer: current path equals p, no reset, no path flush
    have hpath := hinv.pathEq hbuf
    have hstep : mergeStep max_chars 0 st i sp =
        (let st3 : MState :=
          { st with buf := st.buf ++ [sp.text], cur_len := st.cur_len + sp.text.length }
         if max_chars ≤ st3.cur_len then
           { chunks := flushChunks st.chunks (st.buf ++ [sp.text]) st.start
               st.current_page st.current_path,
             buf := [], start := i, cur_len := 0,
             current_path := sp.path, current_page := sp.page }
         else st3) := by
      simp [mergeStep, hbuf, hsp, hpath]
    by_cases hlen : max_chars ≤ st.cur_len + sp.text.length
    · have hclean2 : ∀ b ∈ st.buf ++ [sp.text], CleanTxt b := by
        intro b hb
        rcases List.mem_append.mp hb with h | h
        · exact hinv.bufClean b h
        · rw [List.mem_singleton.mp h]; exact hc
      have hflush := @flushChunks_emits (st.buf ++ [sp.text]) (by simp)
        (pyStrip_join_ne_nil (by simp) hclean2) st.chunks st.start
        st.current_page st.current_path
      rw [hstep]
      simp only [if_pos hlen, hflush]
      refine ⟨⟨by simp, by simp, by simpa using hmax, by simp⟩, ?_, ?_, ?_⟩
      · simp only [List.length_append, List.length_cons, List.length_nil, Nat.add_mul,
          Nat.one_mul]
        omega
      · left; simp
      · intro h1
        rw [h1] at hlen
        have hmaxeq : st.cur_len + 1 = max_chars := by
          have := hinv.curLt
          omega
        simp only [List.length_append, List.length_cons, List.length_nil, hmaxeq]
        exact ⟨by rw [Nat.mod_self], by rw [Nat.div_self (by omega)]⟩
    · rw [hstep]
      simp only [if_neg hlen]
      refine ⟨?_, by omega, by simp, ?_⟩
      · refine ⟨?_, ?_, by show st.cur_len + sp.text.length < max_chars; omega,
          fun _ => hpath⟩
        · intro b hb
          rcases List.mem_append.mp hb with h | h
          · exact hinv.bufClean b h
          · rw [List.mem_singleton.mp h]; exact hc
        · simp [hinv.curLen]
      · intro h1
        rw [h1] at hlen
        refine ⟨?_, ?_⟩
        · simp only [h1]
          exact (Nat.mod_eq_of_lt (by omega)).symm
        · simp only [h1, Nat.div_eq_of_lt (show st.cur_len + 1 < max_chars by omega),
            Nat.add_zero]

theorem mod_add_mod_add (a k m : Nat) : (a % m + k) % m = (a + k) % m := by
  conv_rhs => rw [← Nat.div_add_mod a m]
  rw [Nat.add_assoc, Nat.mul_add_mod]

theorem div_add_div_add (a k m : Nat) (hm : 0 < m) :
    a / m + (a % m + k) / m = (a + k) / m := by
  conv_rhs => rw [← Nat.div_add_mod a m]
  rw [Nat.add_assoc, Nat.mul_add_div hm]

theorem ceilDiv_eq_div_add (n m : Nat) (hm : 1 ≤ m) :
    ceilDiv n m = n / m + (if n % m = 0 then 0 else 1) := by
  unfold ceilDiv
  by_cases hr : n % m = 0
  · rw [if_pos hr]
    have hdm := Nat.div_add_mod n m
    have h1 : n + m - 1 = m * (n / m) + (m - 1) := by omega
    have h3 : (m - 1) / m = 0 := Nat.div_eq_of_lt (by omega)
    rw [h1, Nat.mul_add_div hm, h3]
  · rw [if_neg hr]
    have hdm := Nat.div_add_mod n m
    have hmod : n % m < m := Nat.mod_lt n (by omega)
    have h1 : n + m - 1 = m * (n / m) + m + (n % m - 1) := by omega
    have h2 : m * (n / m) + m + (n % m - 1) = m * (n / m + 1) + (n % m - 1) := by ring
    have h3 : (n % m - 1) / m = 0 := Nat.div_eq_of_lt (by omega)
    rw [h1, h2, Nat.mul_add_div hm, h3]

theorem mergeLoop_zero_overlap (max_chars : Nat) (hmax : 1 ≤ max_chars) (p : Option Str) :
    ∀ (spans : List Span) (i : Nat) (st : MState),
      (∀ sp ∈ spans, sp.path = p) → (∀ sp ∈ spans, CleanTxt sp.text) →
      MergeInv max_chars p st →
      MergeInv max_chars p (mergeLoop max_chars 0 i st spans) ∧
      (mergeLoop max_chars 0 i st spans).chunks.length * max_chars
          + (mergeLoop max_chars 0 i st spans).cur_len
        ≤ st.chunks.length * max_chars + st.cur_len
          + (spans.map fun sp => sp.text.length).sum ∧
      (spans ≠ [] →
        ((mergeLoop max_chars 0 i st spans).chunks ≠ [] ∨
          (mergeLoop max_chars 0 i st spans).buf ≠ [])) ∧
      ((∀ sp ∈ spans, sp.text.length = 1) →
        (mergeLoop max_chars 0 i st spans).cur_len
            = (st.cur_len + spans.length) % max_chars ∧
        (mergeLoop max_chars 0 i st spans).chunks.length
            = st.chunks.length + (st.cur_len + spans.length) / max_chars) := by
  intro spans
  induction spans with
  | nil =>
    intro i st _ _ hinv
    refine ⟨hinv, by simp [mergeLoop], by simp, ?_⟩
    intro _
    simp only [mergeLoop, List.length_nil, Nat.add_zero]
    exact ⟨(Nat.mod_eq_of_lt hinv.curLt).symm,
      by rw [Nat.div_eq_of_lt hinv.curLt, Nat.add_zero]⟩
  | cons sp rest ih =>
    intro i st hpath hclean hinv
    have hstep := mergeStep_zero_overlap max_chars hmax p st i sp
      (hpath sp (List.mem_cons_self _ _)) (hclean sp (List.mem_cons_self _ _)) hinv
    obtain ⟨inv1, bound1, disj1, unit1⟩ := hstep
    have hrest := ih (i + 1) (mergeStep max_chars 0 st i sp)
      (fun s hs => hpath s (List.mem_cons_of_mem _ hs))
      (fun s hs => hclean s (List.mem_cons_of_mem _ hs)) inv1
    obtain ⟨inv2, bound2, disj2, unit2⟩ := hrest
    have hloop : mergeLoop max_chars 0 i st (sp :: rest)
        = mergeLoop max_chars 0 (i + 1) (mergeStep max_chars 0 st i sp) rest := rfl
    rw [hloop]
    refine ⟨inv2, ?_, ?_, ?_⟩
    · calc _ ≤ (mergeStep max_chars 0 st i sp).chunks.length * max_chars
              + (mergeStep max_chars 0 st i sp).cur_len
              + (rest.map fun s => s.text.length).sum := bound2
        _ ≤ st.chunks.length * max_chars + st.cur_len + sp.text.length
              + (rest.map fun s => s.text.length).sum := by omega
        _ = st.chunks.length * max_chars + st.cur_len
              + ((sp :: rest).map fun s => s.text.length).sum := by
            simp only [List.map_cons, List.sum_cons]
            omega
    · intro _
      cases hr : rest with
      | nil =>
        simp only [hr, mergeLoop] at *
        exact disj1
      | cons r rs =>
        rw [hr] at disj2
        exact disj2 (by simp)
    · intro hunit
      have h1 : sp.text.length = 1 := hunit sp (List.mem_cons_self _ _)
      have hu2 := unit2 fun s hs => hunit s (List.mem_cons_of_mem _ hs)
      obtain ⟨hcur1, hG1⟩ := unit1 h1
      obtain ⟨hcur2, hG2⟩ := hu2
      constructor
      · rw [hcur2, hcur1, mod_add_mod_add]
        simp only [List.length_cons]
        congr 1
        omega
      · rw [hG2, hG1, hcur1]
        rw [Nat.add_assoc, div_add_div_add _ _ _ (by omega)]
        simp only [List.length_cons]
        congr 2
        omega

theorem sum_map_length_one : ∀ (l : List Span), (∀ sp ∈ l, sp.text.length = 1) →
    (l.map fun sp => sp.text.length).sum = l.length := by
  intro l
  induction l with
  | nil => intro _; simp
  | cons a t ih =>
    intro h1
    simp only [List.map_cons, List.sum_cons, List.length_cons]
    rw [h1 a (List.mem_cons_self _ _), ih fun s hs => h1 s (List.mem_cons_of_mem _ hs)]
    omega

/-- C2 (amended): for every ordered span sequence whose spans all share one
section path and are clean (non-blank, strip-invariant), with overlap seeding
disabled (`overlap = 0`, the count "before overlap-seeding"), the merge/split
algorithm of `docling_to_chunks` flushes at most `ceil(L / maxChars)` chunks,
with equality when every span has length 1; the boundary case `L = maxChars`
yields exactly 1 chunk.  (The count can be strictly below the ceiling because a
flush only happens after a whole span is appended, so a buffer may overshoot
`maxChars`.) -/
theorem C2_merge_split_flush_count (max_chars : Nat) (hmax : 1 ≤ max_chars)
    (p : Option Str) (spans : List Span)
    (hpath : ∀ sp ∈ spans, sp.path = p) (hclean : ∀ sp ∈ spans, CleanTxt sp.text) :
    (mergeSpans max_chars 0 spans).length
        ≤ ceilDiv ((spans.map fun sp => sp.text.length).sum) max_chars ∧
    ((spans.map fun sp => sp.text.length).sum = max_chars →
        (mergeSpans max_chars 0 spans).length = 1) ∧
    ((∀ sp ∈ spans, sp.text.length = 1) →
        (mergeSpans max_chars 0 spans).length
          = ceilDiv ((spans.map fun sp => sp.text.length).sum) max_chars) := by
  have hinit : MergeInv max_chars p initMState :=
    ⟨by simp [initMState], by simp [initMState],
     by simpa [initMState] using hmax, by simp [initMState]⟩
  obtain ⟨hinv, hbound, hdisj, hunit⟩ :=
    mergeLoop_zero_overlap max_chars hmax p spans 0 initMState hpath hclean hinit
  set st := mergeLoop max_chars 0 0 initMState spans with hst
  have hms : mergeSpans max_chars 0 spans
      = flushChunks st.chunks st.buf st.start st.current_page st.current_path := by
    rw [hst]
    rfl
  have hcount : (mergeSpans max_chars 0 spans).length
      = st.chunks.length + (if st.buf = [] then 0 else 1) := by
    rw [hms]
    by_cases hb : st.buf = []
    · rw [hb, flushChunks_nil, if_pos rfl, Nat.add_zero]
    · rw [flushChunks_emits hb (pyStrip_join_ne_nil hb hinv.bufClean) _ _ _ _, if_neg hb]
      simp
  have hS : st.chunks.length * max_chars + st.cur_len
      ≤ (spans.map fun sp => sp.text.length).sum := by
    have := hbound
    simpa [initMState] using this
  have hpart1 : (mergeSpans max_chars 0 spans).length
      ≤ ceilDiv ((spans.map fun sp => sp.text.length).sum) max_chars := by
    rw [hcount]
    by_cases hb : st.buf = []
    · rw [if_pos hb, Nat.add_zero]
      have h1 : st.chunks.length ≤ (spans.map fun sp => sp.text.length).sum / max_chars :=
        (Nat.le_div_iff_mul_le (by omega)).mpr (by omega)
      have h2 : (spans.map fun sp => sp.text.length).sum / max_chars
          ≤ ceilDiv ((spans.map fun sp => sp.text.length).sum) max_chars :=
        Nat.div_le_div_right (by omega)
      omega
    · rw [if_neg hb]
      have hc1 : 1 ≤ st.cur_len := hinv.buf_len_pos hb
      refine (Nat.le_div_iff_mul_le (show 0 < max_chars by omega)).mpr ?_
      have hx : (st.chunks.length + 1) * max_chars = st.chunks.length * max_chars + max_chars := by
        ring
      omega
  refine ⟨hpart1, ?_, ?_⟩
  · intro hSmax
    have hne : spans ≠ [] := by
      intro hnil
      rw [hnil] at hSmax
      simp at hSmax
      omega
    have hup : (mergeSpans max_chars 0 spans).length ≤ 1 := by
      have := hpart1
      rw [hSmax] at this
      have hceil1 : ceilDiv max_chars max_chars = 1 := by
        rw [ceilDiv_eq_div_add _ _ hmax, Nat.div_self (by omega), Nat.mod_self]
        simp
      omega
    have hlow : 1 ≤ (mergeSpans max_chars 0 spans).length := by
      rw [hcount]
      rcases hdisj hne with h | h
      · have := List.length_pos.mpr h
        omega
      · rw [if_neg h]
        omega
    omega
  · intro hone
    obtain ⟨hcur, hG⟩ := hunit hone
    have hSlen := sum_map_length_one spans hone
    have hinit0 : initMState.cur_len = 0 := rfl
    have hinitc : initMState.chunks.length = 0 := rfl
    rw [hinit0, Nat.zero_add] at hcur hG
    rw [hinitc, Nat.zero_add] at hG
    rw [hcount, hSlen, ceilDiv_eq_div_add _ _ hmax, hG]
    congr 1
    by_cases hb : st.buf = []
    · have hc0 : st.cur_len = 0 := by
        have := hinv.curLen
        rw [hb] at this
        simpa using this
      rw [if_pos hb, if_pos (by omega : spans.length % max_chars = 0)]
    · have hc1 : 1 ≤ st.cur_len := hinv.buf_len_pos hb
      rw [if_neg hb, if_neg (by omega : ¬ spans.length % max_chars = 0)]

/-- C2 counterexample: a single clean span of length 3 with `maxChars = 2`
(overlap 0) shares one section path and has total length `L = 3`, but the merge
loop flushes exactly 1 chunk, not `ceil(3 / 2) = 2`: the buffer is flushed whole
once it reaches `maxChars`, it is never split at the boundary. -/
theorem C2_counterexample :
    (∀ sp ∈ [Span.mk (str "aaa") none none], sp.path = none ∧ CleanTxt sp.text) ∧
    (([Span.mk (str "aaa") none none].map fun sp => sp.text.length).sum = 3) ∧
    (mergeSpans 2 0 [Span.mk (str "aaa") none none]).length = 1 ∧
    ceilDiv 3 2 = 2 := by
  refine ⟨?_, by decide, by decide, by decide⟩
  intro sp hsp
  rw [List.mem_singleton.mp hsp]
  exact ⟨rfl, by decide, by decide⟩

/-- Witness for C2 at a concrete input: one clean span "ab" with
`maxChars = 2 = L` (the boundary case). -/
theorem C2_merge_split_flush_count_witness :
    (1 ≤ 2) ∧
    ((mergeSpans 2 0 [Span.mk (str "ab") none none]).length
        ≤ ceilDiv (([Span.mk (str "ab") none none].map fun sp => sp.text.length).sum) 2 ∧
      (([Span.mk (str "ab") none none].map fun sp => sp.text.length).sum = 2 →
        (mergeSpans 2 0 [Span.mk (str "ab") none none]).length = 1) ∧
      ((∀ sp ∈ [Span.mk (str "ab") none none], sp.text.length = 1) →
        (mergeSpans 2 0 [Span.mk (str "ab") none none]).length
          = ceilDiv (([Span.mk (str "ab") none none].map fun sp => sp.text.length).sum) 2)) :=
  ⟨by decide, C2_merge_split_flush_count 2 (by decide) none _
    (by intro sp hsp; rw [List.mem_singleton.mp hsp])
    (by intro sp hsp; rw [List.mem_singleton.mp hsp]; exact ⟨by decide, by decide⟩)⟩

theorem flushChunksI_erase (chunks : List TChunk) (buf : List Str) (start_idx : Nat)
    (pg : Option Int) (pth : Option Str) (bl : Bool) :
    (flushChunksI chunks buf start_idx pg pth bl).map (fun tc => tc.chunk)
      = flushChunks (chunks.map fun tc => tc.chunk) buf start_idx pg pth := by
  unfold flushChunksI flushChunks
  by_cases hb : buf = []
  · simp [hb]
  · by_cases ht : pyStrip (pyJoin dlSep buf) = []
    · simp [hb, ht]
    · simp [hb, ht]

theorem mergeStepI_erase (max_chars overlap : Nat) (st : MStateI) (i : Nat) (sp : Span) :
    eraseSt (mergeStepI max_chars overlap st i sp)
      = mergeStep max_chars overlap (eraseSt st) i sp := by
  by_cases hb : st.buf = []
  · by_cases hlen : max_chars ≤ st.cur_len + sp.text.length
    · by_cases hov : 0 < overlap
      · simp [mergeStepI, mergeStep, eraseSt, hb, hlen, hov, flushChunksI_erase]
      · simp [mergeStepI, mergeStep, eraseSt, hb, hlen, hov, flushChunksI_erase]
    · simp [mergeStepI, mergeStep, eraseSt, hb, hlen]
  · by_cases hp : sp.path = st.current_path
    · by_cases hlen : max_chars ≤ st.cur_len + sp.text.length
      · by_cases hov : 0 < overlap
        · simp [mergeStepI, mergeStep, eraseSt, hb, hp, hlen, hov, flushChunksI_erase]
        · simp [mergeStepI, mergeStep, eraseSt, hb, hp, hlen, hov, flushChunksI_erase]
      · simp [mergeStepI, mergeStep, eraseSt, hb, hp, hlen]
    · by_cases hlen : max_chars ≤ sp.text.length
      · by_cases hov : 0 < overlap
        · simp [mergeStepI, mergeStep, eraseSt, hb, hp, hlen, hov, flushChunksI_erase]
        · simp [mergeStepI, mergeStep, eraseSt, hb, hp, hlen, hov, flushChunksI_erase]
      · simp [mergeStepI, mergeStep, eraseSt, hb, hp, hlen, flushChunksI_erase]

theorem mergeLoopI_erase (max_chars overlap : Nat) :
    ∀ (spans : List Span) (i : Nat) (st : MStateI),
      eraseSt (mergeLoopI max_chars overlap i st spans)
        = mergeLoop max_chars overlap i (eraseSt st) spans := by
  intro spans
  induction spans with
  | nil => intro i st; rfl
  | cons sp rest ih =>
    intro i st
    show eraseSt (mergeLoopI max_chars overlap (i + 1) (mergeStepI max_chars overlap st i sp) rest)
      = mergeLoop max_chars overlap (i + 1) (mergeStep max_chars overlap (eraseSt st) i sp) rest
    rw [ih, mergeStepI_erase]

theorem mergeSpansI_erase (max_chars overlap : Nat) (spans : List Span) :
    (mergeSpansI max_chars overlap spans).map (fun tc => tc.chunk)
      = mergeSpans max_chars overlap spans := by
  have h : eraseSt (mergeLoopI max_chars overlap 0 initMStateI spans)
      = mergeLoop max_chars overlap 0 initMState spans := by
    have := mergeLoopI_erase max_chars overlap spans 0 initMStateI
    rwa [show eraseSt initMStateI = initMState from rfl] at this
  show (flushChunksI (mergeLoopI max_chars overlap 0 initMStateI spans).chunks
      (mergeLoopI max_chars overlap 0 initMStateI spans).buf
      (mergeLoopI max_chars overlap 0 initMStateI spans).start
      (mergeLoopI max_chars overlap 0 initMStateI spans).current_page
      (mergeLoopI max_chars overlap 0 initMStateI spans).current_path false).map
        (fun tc => tc.chunk)
    = flushChunks (mergeLoop max_chars overlap 0 initMState spans).chunks
      (mergeLoop max_chars overlap 0 initMState spans).buf
      (mergeLoop max_chars overlap 0 initMState spans).start
      (mergeLoop max_chars overlap 0 initMState spans).current_page
      (mergeLoop max_chars overlap 0 initMState spans).current_path
  rw [flushChunksI_erase, ← h]
  rfl

theorem rightClean_head_reverse {s : Str} (h : RightClean s) (hne : s ≠ []) :
    ∃ c cs, s.reverse = c :: cs ∧ ¬ pyIsSpace c := by
  rcases hr : s.reverse with _ | ⟨c, cs⟩
  · exact absurd (by simpa using congrArg List.reverse hr) hne
  · refine ⟨c, cs, rfl, ?_⟩
    intro hws
    unfold RightClean pyStripRight at h
    rw [hr, List.dropWhile_cons, if_pos hws] at h
    have hlen := congrArg List.length h
    have hsub : (cs.dropWhile pyIsSpace).length ≤ cs.length :=
      (List.dropWhile_sublist _).length_le
    have hrevlen : s.reverse.length = s.length := List.length_reverse s
    rw [hr] at hrevlen
    simp only [List.length_reverse, List.length_cons] at hlen hrevlen
    omega

theorem rightClean_append {a b : Str} (hb : RightClean b) (hbne : b ≠ []) :
    RightClean (a ++ b) := by
  obtain ⟨c, cs, hrev, hcw⟩ := rightClean_head_reverse hb hbne
  unfold RightClean pyStripRight
  rw [List.reverse_append, hrev]
  rw [show (c :: cs) ++ a.reverse = c :: (cs ++ a.reverse) from rfl]
  rw [List.dropWhile_cons, if_neg hcw]
  rw [show c :: (cs ++ a.reverse) = (c :: cs) ++ a.reverse from rfl, ← hrev]
  rw [List.reverse_append]
  simp

theorem rightClean_of_cleanTxt {s : Str} (h : CleanTxt s) : RightClean s := by
  have h2 := h.2
  unfold pyStrip pyStripLeft at h2
  unfold RightClean
  have hlen1 : (pyStripRight s).length ≤ s.length := by
    unfold pyStripRight
    simp only [List.length_reverse]
    exact le_trans (List.dropWhile_sublist _).length_le (by simp)
  have hlen2 : ((pyStripRight s).dropWhile pyIsSpace).length ≤ (pyStripRight s).length :=
    (List.dropWhile_sublist _).length_le
  have hlen3 : s.length ≤ ((pyStripRight s).dropWhile pyIsSpace).length := by
    rw [h2]
  have heq : (s.reverse.dropWhile pyIsSpace).length = s.reverse.length := by
    unfold pyStripRight at hlen1 hlen2 hlen3
    simp only [List.length_reverse] at *
    omega
  have hdw : s.reverse.dropWhile pyIsSpace = s.reverse :=
    (List.dropWhile_sublist _).eq_of_length heq
  unfold pyStripRight
  rw [hdw, List.reverse_reverse]

theorem pyJoin_last_ne_nil {sep b : Str} (hne : b ≠ []) :
    ∀ u : List Str, pyJoin sep (u ++ [b]) ≠ [] := by
  intro u
  induction u with
  | nil => simpa [pyJoin] using hne
  | cons x t ih =>
    have hh : pyJoin sep ((x :: t) ++ [b]) = x ++ sep ++ pyJoin sep (t ++ [b]) := by
      cases t <;> simp [pyJoin]
    rw [hh]
    intro hz
    have hlz := congrArg List.length hz
    simp only [List.length_append, List.length_nil] at hlz
    have hpos : 0 < (pyJoin sep (t ++ [b])).length := List.length_pos.mpr ih
    omega

/-- Joining a buffer whose last element is non-empty and right-clean gives a
right-clean string. -/
theorem rightClean_pyJoin {sep : Str} : ∀ {bs : List Str} {b : Str},
    RightClean b → b ≠ [] → RightClean (pyJoin sep (bs ++ [b])) := by
  intro bs
  induction bs with
  | nil => intro b hb hne; simpa [pyJoin] using hb
  | cons x t ih =>
    intro b hb hne
    have hjoin : pyJoin sep ((x :: t) ++ [b]) = x ++ sep ++ pyJoin sep (t ++ [b]) := by
      cases t <;> simp [pyJoin]
    rw [hjoin]
    exact rightClean_append (ih hb hne) (pyJoin_last_ne_nil hne t)

theorem rightClean_has_nonspace {s : Str} (h : RightClean s) (hne : s ≠ []) :
    ∃ c ∈ s, ¬ pyIsSpace c := by
  obtain ⟨c, cs, hrev, hcw⟩ := rightClean_head_reverse h hne
  refine ⟨c, ?_, hcw⟩
  rw [← List.mem_reverse, hrev]
  exact List.mem_cons_self _ _

theorem pyStripLeft_append_of_nonspace : ∀ {a : Str} (b : Str),
    (∃ c ∈ a, ¬ pyIsSpace c) → pyStripLeft (a ++ b) = pyStripLeft a ++ b := by
  intro a
  induction a with
  | nil => intro b h; simp at h
  | cons x xs ih =>
    intro b h
    by_cases hx : pyIsSpace x
    · have hxs : ∃ c ∈ xs, ¬ pyIsSpace c := by
        obtain ⟨c, hc, hcw⟩ := h
        rcases List.mem_cons.mp hc with rfl | hc2
        · exact absurd hx hcw
        · exact ⟨c, hc2, hcw⟩
      show pyStripLeft (x :: (xs ++ b)) = pyStripLeft (x :: xs) ++ b
      unfold pyStripLeft
      rw [List.dropWhile_cons, if_pos hx, List.dropWhile_cons, if_pos hx]
      exact ih b hxs
    · show pyStripLeft (x :: (xs ++ b)) = pyStripLeft (x :: xs) ++ b
      unfold pyStripLeft
      rw [List.dropWhile_cons, if_neg hx, List.dropWhile_cons, if_neg hx]
      rfl

theorem pyStrip_eq_stripLeft_of_rightClean {s : Str} (h : RightClean s) :
    pyStrip s = pyStripLeft s := by
  unfold pyStrip
  rw [h]

theorem pyStripLeft_eq_drop (s : Str) :
    pyStripLeft s = s.drop (s.takeWhile pyIsSpace).length := by
  unfold pyStripLeft
  have h := List.takeWhile_append_dropWhile (p := pyIsSpace) (l := s)
  calc s.dropWhile pyIsSpace
      = (s.takeWhile pyIsSpace ++ s.dropWhile pyIsSpace).drop
          (s.takeWhile pyIsSpace).length := by rw [List.drop_left]
    _ = s.drop (s.takeWhile pyIsSpace).length := by rw [h]

theorem takeLast_drop (s : Str) (j k : Nat) (hj : j ≤ s.length)
    (hk : k ≤ s.length - j) : takeLast k (s.drop j) = takeLast k s := by
  unfold takeLast
  rw [List.drop_drop, List.length_drop]
  congr 1
  omega

theorem takeLast_of_stripLeft {s : Str} {k : Nat}
    (hk : k ≤ (pyStripLeft s).length) :
    takeLast k (pyStripLeft s) = takeLast k s := by
  rw [pyStripLeft_eq_drop] at hk ⊢
  have hj : (s.takeWhile pyIsSpace).length ≤ s.length :=
    (List.takeWhile_sublist _).length_le
  apply takeLast_drop _ _ _ hj
  rw [List.length_drop] at hk
  exact hk

theorem takeLast_ne_nil {s : Str} {k : Nat} (hs : s ≠ []) (hk : 1 ≤ k) :
    takeLast k s ≠ [] := by
  unfold takeLast
  intro h
  have := congrArg List.length h
  rw [List.length_drop] at this
  have hpos : 0 < s.length := List.length_pos.mpr hs
  simp at this
  omega

theorem rightClean_drop {s : Str} (h : RightClean s) (m : Nat) (hne : s.drop m ≠ []) :
    RightClean (s.drop m) := by
  obtain ⟨c, cs, hrev, hcw⟩ := rightClean_head_reverse h (by
    intro hnil
    rw [hnil] at hne
    simp at hne)
  rcases hr2 : (s.drop m).reverse with _ | ⟨c2, cs2⟩
  · exact absurd (by simpa using congrArg List.reverse hr2) hne
  · have hsplit : s = s.take m ++ s.drop m := (List.take_append_drop m s).symm
    have hrs : s.reverse = (s.drop m).reverse ++ (s.take m).reverse := by
      rw [← List.reverse_append, ← hsplit]
    rw [hrev, hr2] at hrs
    have hc2 : c2 = c := by
      have := congrArg (fun l => l.head?) hrs
      simpa using this.symm
    unfold RightClean pyStripRight
    rw [hr2, List.dropWhile_cons, if_neg (hc2 ▸ hcw), ← hr2]
    simp

theorem rightClean_takeLast {s : Str} (h : RightClean s) (hne : s ≠ []) {k : Nat}
    (hk : 1 ≤ k) : RightClean (takeLast k s) ∧ takeLast k s ≠ [] := by
  have hn := takeLast_ne_nil hne hk (s := s)
  exact ⟨rightClean_drop h _ hn, hn⟩

theorem pyJoin_head (sep b : Str) (bs : List Str) :
    ∃ r, pyJoin sep (b :: bs) = b ++ r := by
  cases bs with
  | nil => exact ⟨[], by simp [pyJoin]⟩
  | cons y t => exact ⟨sep ++ pyJoin sep (y :: t), by simp [pyJoin]⟩

theorem pyStrip_join_ne_nil_of_head {sep b : Str} {bs : List Str}
    (hc : ∃ c ∈ b, ¬ pyIsSpace c) : pyStrip (pyJoin sep (b :: bs)) ≠ [] := by
  obtain ⟨c, hcm, hcw⟩ := hc
  obtain ⟨r, hr⟩ := pyJoin_head sep b bs
  intro hnil
  have hmem : c ∈ pyJoin sep (b :: bs) := by
    rw [hr]
    exact List.mem_append.mpr (Or.inl hcm)
  have := mem_pyStrip hmem hcw
  rw [hnil] at this
  exact absurd this (List.not_mem_nil c)

/-- Right-cleanliness of a joined buffer whose head is right-clean non-empty
and whose remaining elements are clean. -/
theorem rightClean_join_buffer {b : Str} {bs : List Str} (hb : RightClean b)
    (hbne : b ≠ []) (hbs : ∀ x ∈ bs, CleanTxt x) :
    RightClean (pyJoin dlSep (b :: bs)) := by
  rcases hlast : bs.getLast? with _ | last
  · rw [List.getLast?_eq_none_iff.mp hlast]
    simpa [pyJoin] using hb
  · have hbsne : bs ≠ [] := by
      intro h
      rw [h] at hlast
      simp at hlast
    have hdecomp : b :: bs = (b :: bs.dropLast) ++ [last] := by
      conv_lhs => rw [← List.dropLast_append_getLast? last hlast]
      rfl
    rw [hdecomp]
    have hmem : last ∈ bs := by
      have hx : bs.dropLast ++ [last] = bs := List.dropLast_append_getLast? last hlast
      rw [← hx]
      exact List.mem_append.mpr (Or.inr (List.mem_singleton_self _))
    have hlc : CleanTxt last := hbs last hmem
    exact rightClean_pyJoin (rightClean_of_cleanTxt hlc) hlc.1

theorem flushChunksI_emits {buf : List Str} (hb : buf ≠ [])
    (hs : pyStrip (pyJoin dlSep buf) ≠ []) (chunks : List TChunk) (s : Nat)
    (pg : Option Int) (pth : Option Str) (bl : Bool) :
    flushChunksI chunks buf s pg pth bl
      = chunks ++ [{ chunk := { chunk_id := dlChunkId s chunks.length,
                                page := pageOr1 pg,
                                text := pyStrip (pyJoin dlSep buf),
                                section_hint := pth },
                     raw := pyJoin dlSep buf, byLen := bl }] := by
  unfold flushChunksI
  rw [if_neg hb, if_neg hs]

/-- Flushing a well-formed non-empty buffer appends exactly one chunk and
preserves the chain and per-chunk facts. -/
theorem flushI_extend {overlap : Nat} (hov : 0 < overlap) {chunks : List TChunk}
    {buf : List Str} (s : Nat) (pg : Option Int) (pth : Option Str) (bl : Bool)
    (hchain : List.Chain' (Link overlap) chunks)
    (hfacts : ∀ tc ∈ chunks, TFacts tc)
    (hbufOk : ∃ b bs, buf = b :: bs ∧ b ≠ [] ∧ RightClean b ∧ (∀ x ∈ bs, CleanTxt x))
    (hpend : ∀ tc, chunks.getLast? = some tc → tc.byLen = true →
      ∃ bs2, buf = takeLast overlap tc.raw :: bs2) :
    flushChunksI chunks buf s pg pth bl
      = chunks ++ [{ chunk := { chunk_id := dlChunkId s chunks.length,
                                page := pageOr1 pg,
                                text := pyStrip (pyJoin dlSep buf),
                                section_hint := pth },
                     raw := pyJoin dlSep buf, byLen := bl }] ∧
    List.Chain' (Link overlap) (flushChunksI chunks buf s pg pth bl) ∧
    (∀ tc ∈ flushChunksI chunks buf s pg pth bl, TFacts tc) ∧
    RightClean (pyJoin dlSep buf) ∧ pyJoin dlSep buf ≠ [] := by
  obtain ⟨b, bs, hbeq, hbne, hbRC, hbsClean⟩ := hbufOk
  have hnonws : ∃ c ∈ b, ¬ pyIsSpace c := rightClean_has_nonspace hbRC hbne
  have hemit : pyStrip (pyJoin dlSep buf) ≠ [] := by
    rw [hbeq]
    exact pyStrip_join_ne_nil_of_head hnonws
  have hRCraw : RightClean (pyJoin dlSep buf) := by
    rw [hbeq]
    exact rightClean_join_buffer hbRC hbne hbsClean
  have hrawne : pyJoin dlSep buf ≠ [] := by
    rw [hbeq]
    obtain ⟨r, hr⟩ := pyJoin_head dlSep b bs
    rw [hr]
    intro hz
    rcases List.append_eq_nil.mp hz with ⟨h1, _⟩
    exact hbne h1
  have heq := flushChunksI_emits (hbeq ▸ List.cons_ne_nil b bs) hemit chunks s pg pth bl
  refine ⟨heq, ?_, ?_, hRCraw, hrawne⟩
  · rw [heq]
    rw [List.chain'_append]
    refine ⟨hchain, List.chain'_singleton _, ?_⟩
    intro x hx y hy
    simp only [List.head?_cons, Option.mem_def, Option.some.injEq] at hy
    intro hxlen
    obtain ⟨bs2, hbs2⟩ := hpend x hx hxlen
    have hbtl : b = takeLast overlap x.raw := by
      rw [hbeq] at hbs2
      exact (List.cons.injEq _ _ _ _).mp hbs2 |>.1
    have htext : pyStrip (pyJoin dlSep buf) = pyStripLeft b ++
        (pyJoin dlSep buf).drop b.length := by
      rw [pyStrip_eq_stripLeft_of_rightClean hRCraw]
      obtain ⟨r, hr⟩ := pyJoin_head dlSep b bs
      rw [hbeq, hr, pyStripLeft_append_of_nonspace r hnonws]
      congr 1
      rw [List.drop_left]
    rw [← hy]
    show pyStripLeft (takeLast overlap x.raw) <+: pyStrip (pyJoin dlSep buf)
    rw [htext, ← hbtl]
    exact List.prefix_append _ _
  · rw [heq]
    intro tc htc
    rcases List.mem_append.mp htc with h | h
    · exact hfacts tc h
    · rw [List.mem_singleton.mp h]
      exact ⟨rfl, hRCraw, hrawne⟩

/-- After a length-caused flush with positive overlap, the reseeded state
satisfies the invariant. -/
theorem seedState_OInv {overlap : Nat} (hov : 0 < overlap) {chunks : List TChunk}
    {buf : List Str} (s i : Nat) (pg pg' : Option Int) (pth pth' : Option Str)
    (hchain : List.Chain' (Link overlap) chunks)
    (hfacts : ∀ tc ∈ chunks, TFacts tc)
    (hbufOk : ∃ b bs, buf = b :: bs ∧ b ≠ [] ∧ RightClean b ∧ (∀ x ∈ bs, CleanTxt x))
    (hpend : ∀ tc, chunks.getLast? = some tc → tc.byLen = true →
      ∃ bs2, buf = takeLast overlap tc.raw :: bs2) :
    OInv overlap { chunks := flushChunksI chunks buf s pg pth true,
                   buf := [takeLast overlap (pyJoin dlSep buf)],
                   start := i, cur_len := (takeLast overlap (pyJoin dlSep buf)).length,
                   current_path := pth', current_page := pg' } := by
  obtain ⟨heq, hchain2, hfacts2, hRCraw, hrawne⟩ :=
    flushI_extend hov s pg pth true hchain hfacts hbufOk hpend
  obtain ⟨hRCtl, htlne⟩ := rightClean_takeLast hRCraw hrawne hov
  refine ⟨hchain2, hfacts2, ?_, ?_⟩
  · right
    exact ⟨takeLast overlap (pyJoin dlSep buf), [], rfl, htlne, hRCtl, by simp⟩
  · intro tc hlast _
    rw [heq] at hlast
    rw [List.getLast?_concat] at hlast
    refine ⟨[], ?_⟩
    rw [← Option.some.injEq _ _ |>.mp hlast]

theorem mergeStepI_OInv (max_chars overlap : Nat) (hov : 0 < overlap) (st : MStateI)
    (i : Nat) (sp : Span) (hc : CleanTxt sp.text) (hinv : OInv overlap st) :
    OInv overlap (mergeStepI max_chars overlap st i sp) := by
  obtain ⟨hchain, hfacts, hbufOk, hpend⟩ := hinv
  have hspRC : RightClean sp.text := rightClean_of_cleanTxt hc
  by_cases hbuf : st.buf = []
  · have hpend0 : ∀ tc, st.chunks.getLast? = some tc → tc.byLen = true → False := by
      intro tc hlast hl
      obtain ⟨bs2, hbs2⟩ := hpend tc hlast hl
      rw [hbuf] at hbs2
      exact List.noConfusion hbs2
    by_cases hlen : max_chars ≤ st.cur_len + sp.text.length
    · have hstep : mergeStepI max_chars overlap st i sp =
          { chunks := flushChunksI st.chunks [sp.text] i sp.page sp.path true,
            buf := [takeLast overlap (pyJoin dlSep [sp.text])],
            start := i, cur_len := (takeLast overlap (pyJoin dlSep [sp.text])).length,
            current_path := sp.path, current_page := sp.page } := by
        simp [mergeStepI, hbuf, hlen, hov]
      rw [hstep]
      exact seedState_OInv hov i i sp.page sp.page sp.path sp.path hchain hfacts
        ⟨sp.text, [], rfl, hc.1, hspRC, by simp⟩
        (fun tc hlast hl => absurd (hpend0 tc hlast hl) not_false)
    · have hstep : mergeStepI max_chars overlap st i sp =
          { chunks := st.chunks, buf := [sp.text], start := i,
            cur_len := st.cur_len + sp.text.length,
            current_path := sp.path, current_page := sp.page } := by
        simp [mergeStepI, hbuf, hlen]
      rw [hstep]
      refine ⟨hchain, hfacts, Or.inr ⟨sp.text, [], rfl, hc.1, hspRC, by simp⟩, ?_⟩
      intro tc hlast hl
      exact absurd (hpend0 tc hlast hl) not_false
  · obtain ⟨b, bs, hbeq, hbne, hbRC, hbsClean⟩ := hbufOk.resolve_left hbuf
    have hbufOk2 : ∃ b2 bs2, st.buf ++ [sp.text] = b2 :: bs2 ∧ b2 ≠ [] ∧ RightClean b2 ∧
        (∀ x ∈ bs2, CleanTxt x) := by
      refine ⟨b, bs ++ [sp.text], by rw [hbeq]; rfl, hbne, hbRC, ?_⟩
      intro x hx
      rcases List.mem_append.mp hx with h | h
      · exact hbsClean x h
      · rw [List.mem_singleton.mp h]; exact hc
    have hpend2 : ∀ tc, st.chunks.getLast? = some tc → tc.byLen = true →
        ∃ bs2, st.buf ++ [sp.text] = takeLast overlap tc.raw :: bs2 := by
      intro tc hlast hl
      obtain ⟨bs2, hbs2⟩ := hpend tc hlast hl
      exact ⟨bs2 ++ [sp.text], by rw [hbs2]; rfl⟩
    by_cases hp : sp.path = st.current_path
    · by_cases hlen : max_chars ≤ st.cur_len + sp.text.length
      · have hstep : mergeStepI max_chars overlap st i sp =
            { chunks := flushChunksI st.chunks (st.buf ++ [sp.text]) st.start
                st.current_page st.current_path true,
              buf := [takeLast overlap (pyJoin dlSep (st.buf ++ [sp.text]))],
              start := i,
              cur_len := (takeLast overlap (pyJoin dlSep (st.buf ++ [sp.text]))).length,
              current_path := sp.path, current_page := sp.page } := by
          simp [mergeStepI, hbuf, hp, hlen, hov]
        rw [hstep]
        exact seedState_OInv hov st.start i st.current_page sp.page st.current_path
          sp.path hchain hfacts hbufOk2 hpend2
      · have hstep : mergeStepI max_chars overlap st i sp =
            { st with buf := st.buf ++ [sp.text],
                      cur_len := st.cur_len + sp.text.length } := by
          simp [mergeStepI, hbuf, hp, hlen]
        rw [hstep]
        exact ⟨hchain, hfacts, Or.inr hbufOk2, hpend2⟩
    · obtain ⟨heqC, hchainC, hfactsC, _, _⟩ :=
        flushI_extend hov st.start st.current_page st.current_path false hchain hfacts
          ⟨b, bs, hbeq, hbne, hbRC, hbsClean⟩ hpend
      have hpendC : ∀ tc,
          (flushChunksI st.chunks st.buf st.start st.current_page st.current_path
            false).getLast? = some tc → tc.byLen = true → False := by
        intro tc hlast hl
        rw [heqC, List.getLast?_concat] at hlast
        have := Option.some.injEq _ _ |>.mp hlast
        rw [← this] at hl
        simp at hl
      by_cases hlen2 : max_chars ≤ sp.text.length
      · have hstep : mergeStepI max_chars overlap st i sp =
            { chunks := flushChunksI
                (flushChunksI st.chunks st.buf st.start st.current_page st.current_path
                  false) [sp.text] i sp.page sp.path true,
              buf := [takeLast overlap (pyJoin dlSep [sp.text])],
              start := i, cur_len := (takeLast overlap (pyJoin dlSep [sp.text])).length,
              current_path := sp.path, current_page := sp.page } := by
          simp [mergeStepI, hbuf, hp, hlen2, hov]
        rw [hstep]
        exact seedState_OInv hov i i sp.page sp.page sp.path sp.path hchainC hfactsC
          ⟨sp.text, [], rfl, hc.1, hspRC, by simp⟩
          (fun tc hlast hl => absurd (hpendC tc hlast hl) not_false)
      · have hstep : mergeStepI max_chars overlap st i sp =
            { chunks := flushChunksI st.chunks st.buf st.start st.current_page
                st.current_path false,
              buf := [sp.text], start := i, cur_len := sp.text.length,
              current_path := sp.path, current_page := sp.page } := by
          simp [mergeStepI, hbuf, hp, hlen2]
        rw [hstep]
        refine ⟨hchainC, hfactsC, Or.inr ⟨sp.text, [], rfl, hc.1, hspRC, by simp⟩, ?_⟩
        intro tc hlast hl
        exact absurd (hpendC tc hlast hl) not_false

theorem flushChunksI_nil (chunks : List TChunk) (s : Nat) (pg : Option Int)
    (pth : Option Str) (bl : Bool) : flushChunksI chunks [] s pg pth bl = chunks := rfl

theorem mergeLoopI_OInv (max_chars overlap : Nat) (hov : 0 < overlap) :
    ∀ (spans : List Span) (i : Nat) (st : MStateI),
      (∀ sp ∈ spans, CleanTxt sp.text) → OInv overlap st →
      OInv overlap (mergeLoopI max_chars overlap i st spans) := by
  intro spans
  induction spans with
  | nil => intro i st _ hinv; exact hinv
  | cons sp rest ih =>
    intro i st hclean hinv
    exact ih (i + 1) _ (fun s hs => hclean s (List.mem_cons_of_mem _ hs))
      (mergeStepI_OInv max_chars overlap hov st i sp
        (hclean sp (List.mem_cons_self _ _)) hinv)

/-- C3 (amended): for every assembly run over clean spans with `overlap > 0`,
for every two consecutive emitted chunks whose boundary was caused by reaching
`maxChars` (the `byLen` tag of the instrumented run, which erases to the plain
run), the trailing `overlapChars` characters of chunk `i`'s raw buffer join —
which coincide with the trailing `overlapChars` characters of chunk `i`'s text
whenever that text is at least `overlapChars` long — appear, after removal of
leading whitespace, as a prefix of chunk `i+1`'s text.  (The leading-whitespace
removal is forced: the seeded tail is cut from the unstripped join and may begin
inside the blank-line separator, which the next chunk's `strip()` removes.) -/
theorem C3_overlap_prefix (max_chars overlap : Nat) (hov : 0 < overlap)
    (spans : List Span) (hclean : ∀ sp ∈ spans, CleanTxt sp.text) :
    ((mergeSpansI max_chars overlap spans).map fun tc => tc.chunk)
        = mergeSpans max_chars overlap spans ∧
    List.Chain' (Link overlap) (mergeSpansI max_chars overlap spans) ∧
    (∀ tc ∈ mergeSpansI max_chars overlap spans,
      overlap ≤ tc.chunk.text.length →
        takeLast overlap tc.chunk.text = takeLast overlap tc.raw) := by
  have hinit : OInv overlap initMStateI :=
    ⟨by simp [initMStateI], by simp [initMStateI], Or.inl rfl, by simp [initMStateI]⟩
  have hfin := mergeLoopI_OInv max_chars overlap hov spans 0 initMStateI hclean hinit
  obtain ⟨hchain, hfacts, hbufOk, hpend⟩ := hfin
  have hms : mergeSpansI max_chars overlap spans
      = flushChunksI (mergeLoopI max_chars overlap 0 initMStateI spans).chunks
          (mergeLoopI max_chars overlap 0 initMStateI spans).buf
          (mergeLoopI max_chars overlap 0 initMStateI spans).start
          (mergeLoopI max_chars overlap 0 initMStateI spans).current_page
          (mergeLoopI max_chars overlap 0 initMStateI spans).current_path false := rfl
  have hout : List.Chain' (Link overlap) (mergeSpansI max_chars overlap spans) ∧
      (∀ tc ∈ mergeSpansI max_chars overlap spans, TFacts tc) := by
    rw [hms]
    rcases hbufOk with hb | hbufOk2
    · rw [hb, flushChunksI_nil]
      exact ⟨hchain, hfacts⟩
    · obtain ⟨_, hchain2, hfacts2, _, _⟩ := flushI_extend hov
        (mergeLoopI max_chars overlap 0 initMStateI spans).start
        (mergeLoopI max_chars overlap 0 initMStateI spans).current_page
        (mergeLoopI max_chars overlap 0 initMStateI spans).current_path false
        hchain hfacts hbufOk2 hpend
      exact ⟨hchain2, hfacts2⟩
  refine ⟨mergeSpansI_erase _ _ _, hout.1, ?_⟩
  intro tc htc hlen
  obtain ⟨htext, hRC, hne⟩ := hout.2 tc htc
  rw [htext, pyStrip_eq_stripLeft_of_rightClean hRC] at hlen ⊢
  exact takeLast_of_stripLeft hlen

/-- C3 counterexample: spans "aaaa", "bb", "c" (all clean, same section path)
with `maxChars = 6`, `overlap = 3`.  The first boundary is length-caused, yet
the trailing 3 characters of chunk 0's text, `"\nbb"`, are not a prefix of
chunk 1's text `"bb\n\nc"`: the seeded tail began inside the blank-line
separator and the next chunk's `strip()` removed that newline. -/
theorem C3_counterexample :
    mergeSpans 6 3 [Span.mk (str "aaaa") none none, Span.mk (str "bb") none none,
        Span.mk (str "c") none none]
      = [{ chunk_id := str "dl_0_0", page := 1, text := str "aaaa\n\nbb",
           section_hint := none },
         { chunk_id := str "dl_1_1", page := 1, text := str "bb\n\nc",
           section_hint := none }] ∧
    (mergeSpansI 6 3 [Span.mk (str "aaaa") none none, Span.mk (str "bb") none none,
        Span.mk (str "c") none none]).map (fun tc => tc.byLen) = [true, false] ∧
    takeLast 3 (str "aaaa\n\nbb") = str "\nbb" ∧
    ¬ (takeLast 3 (str "aaaa\n\nbb") <+: str "bb\n\nc") := by
  refine ⟨by decide, by decide, by decide, ?_⟩
  intro h
  obtain ⟨t, ht⟩ := h
  have := congrArg (fun l => l.head?) ht
  simp [takeLast, str] at this

/-- Witness for C3 at the same concrete input. -/
theorem C3_overlap_prefix_witness :
    (0 < 3) ∧
    (((mergeSpansI 6 3 [Span.mk (str "aaaa") none none, Span.mk (str "bb") none none,
          Span.mk (str "c") none none]).map fun tc => tc.chunk)
        = mergeSpans 6 3 [Span.mk (str "aaaa") none none, Span.mk (str "bb") none none,
          Span.mk (str "c") none none] ∧
      List.Chain' (Link 3) (mergeSpansI 6 3 [Span.mk (str "aaaa") none none,
          Span.mk (str "bb") none none, Span.mk (str "c") none none]) ∧
      (∀ tc ∈ mergeSpansI 6 3 [Span.mk (str "aaaa") none none,
          Span.mk (str "bb") none none, Span.mk (str "c") none none],
        3 ≤ tc.chunk.text.length →
          takeLast 3 tc.chunk.text = takeLast 3 tc.raw)) :=
  ⟨by decide, C3_overlap_prefix 6 3 (by decide) _ (by decide)⟩

theorem dropWhile_idem (p : Char → Bool) : ∀ l : Str,
    (l.dropWhile p).dropWhile p = l.dropWhile p := by
  intro l
  induction l with
  | nil => rfl
  | cons x xs ih =>
    by_cases hx : p x
    · rw [List.dropWhile_cons, if_pos hx]
      exact ih
    · rw [List.dropWhile_cons, if_neg hx, List.dropWhile_cons, if_neg hx]

theorem pyStripRight_idem (s : Str) : pyStripRight (pyStripRight s) = pyStripRight s := by
  unfold pyStripRight
  rw [List.reverse_reverse, dropWhile_idem]

theorem rightClean_pyStripRight (s : Str) : RightClean (pyStripRight s) :=
  pyStripRight_idem s

theorem rightClean_pyStripLeft {s : Str} (h : RightClean s) :
    RightClean (pyStripLeft s) := by
  rcases hn : pyStripLeft s with _ | ⟨c, cs⟩
  · unfold RightClean pyStripRight
    rfl
  · rw [← hn]
    rw [pyStripLeft_eq_drop]
    apply rightClean_drop h
    rw [← pyStripLeft_eq_drop, hn]
    exact List.cons_ne_nil _ _

theorem pyStrip_idem (s : Str) : pyStrip (pyStrip s) = pyStrip s := by
  show pyStripLeft (pyStripRight (pyStripLeft (pyStripRight s)))
    = pyStripLeft (pyStripRight s)
  rw [rightClean_pyStripLeft (rightClean_pyStripRight s)]
  unfold pyStripLeft
  rw [dropWhile_idem]

theorem takeWhile_append_of_all {p : Char → Bool} : ∀ (u w : Str),
    (∀ c ∈ u, p c) → List.takeWhile p (u ++ w) = u ++ List.takeWhile p w := by
  intro u
  induction u with
  | nil => intro w _; rfl
  | cons x xs ih =>
    intro w hall
    have hx : p x := hall x (List.mem_cons_self _ _)
    show List.takeWhile p (x :: (xs ++ w)) = x :: (xs ++ List.takeWhile p w)
    rw [List.takeWhile_cons, if_pos hx, ih w fun c hc => hall c (List.mem_cons_of_mem _ hc)]

theorem idSuffix_spec (a b : Str) (hb : ∀ c ∈ b, c ≠ '_') :
    idSuffix (a ++ '_' :: b) = b := by
  unfold idSuffix
  rw [List.reverse_append, List.reverse_cons, List.append_assoc]
  rw [takeWhile_append_of_all b.reverse (['_'] ++ a.reverse)
    (fun c hc => by simpa using hb c (List.mem_reverse.mp hc))]
  simp

theorem dlChunkId_inj_pos {s1 s2 k1 k2 : Nat} (h : dlChunkId s1 k1 = dlChunkId s2 k2) :
    k1 = k2 := by
  have h1 : idSuffix (dlChunkId s1 k1) = natStr k1 := by
    unfold dlChunkId
    rw [show str "dl_" ++ natStr s1 ++ '_' :: natStr k1
      = (str "dl_" ++ natStr s1) ++ '_' :: natStr k1 by rw [List.append_assoc]]
    exact idSuffix_spec _ _ fun c hc heq => natStr_ne_underscore k1 (heq ▸ hc)
  have h2 : idSuffix (dlChunkId s2 k2) = natStr k2 := by
    unfold dlChunkId
    rw [show str "dl_" ++ natStr s2 ++ '_' :: natStr k2
      = (str "dl_" ++ natStr s2) ++ '_' :: natStr k2 by rw [List.append_assoc]]
    exact idSuffix_spec _ _ fun c hc heq => natStr_ne_underscore k2 (heq ▸ hc)
  apply natStr_injective
  rw [← h1, ← h2, h]

theorem pChunkId_inj {p1 p2 : Int} {s1 s2 : Nat} (h : pChunkId p1 s1 = pChunkId p2 s2) :
    p1 = p2 ∧ s1 = s2 := by
  have hbefore : ∀ (p : Int) (s : Nat), idBefore (pChunkId p s) = 'p' :: intStr p := by
    intro p s
    unfold idBefore pChunkId
    rw [show 'p' :: intStr p ++ '_' :: natStr s = ('p' :: intStr p) ++ '_' :: natStr s
      from rfl]
    rw [takeWhile_append_of_all ('p' :: intStr p) ('_' :: natStr s) ?hall]
    · rw [List.takeWhile_cons]
      simp
    · intro c hc
      rcases List.mem_cons.mp hc with rfl | hc2
      · simp
      · simp only [ne_eq, decide_eq_true_eq]
        intro heq
        exact intStr_ne_underscore p (heq ▸ hc2)
  have hsuffix : ∀ (p : Int) (s : Nat), idSuffix (pChunkId p s) = natStr s := by
    intro p s
    unfold pChunkId
    rw [show 'p' :: intStr p ++ '_' :: natStr s = ('p' :: intStr p) ++ '_' :: natStr s
      from rfl]
    exact idSuffix_spec _ _ fun c hc heq => natStr_ne_underscore s (heq ▸ hc)
  constructor
  · have h1 := hbefore p1 s1
    have h2 := hbefore p2 s2
    rw [h] at h1
    rw [h1] at h2
    exact (intStr_injective (List.cons.injEq _ _ _ _ |>.mp h2.symm).2).symm
  · have h1 := hsuffix p1 s1
    have h2 := hsuffix p2 s2
    rw [h] at h1
    rw [h1] at h2
    exact (natStr_injective h2.symm).symm

theorem pageOr1_ge_one {pg : Option Int} (h : PageOk pg) : 1 ≤ pageOr1 pg := by
  rcases h with h | ⟨p, hp, hp2⟩
  · rw [h]; decide
  · rw [hp]
    show (1 : Int) ≤ if p = 0 then 1 else p
    split <;> omega

theorem flushChunks_GInv {chunks : List Chunk} {buf : List Str}
    (start_idx : Nat) {pg : Option Int} (pth : Option Str)
    (htexts : ∀ c ∈ chunks, c.text ≠ [] ∧ pyStrip c.text = c.text)
    (hpages : ∀ c ∈ chunks, 1 ≤ c.page)
    (hids : ∀ j (h : j < chunks.length), ∃ s, (chunks.get ⟨j, h⟩).chunk_id = dlChunkId s j)
    (hpg : PageOk pg) :
    (∀ c ∈ flushChunks chunks buf start_idx pg pth,
        c.text ≠ [] ∧ pyStrip c.text = c.text) ∧
    (∀ c ∈ flushChunks chunks buf start_idx pg pth, 1 ≤ c.page) ∧
    (∀ j (h : j < (flushChunks chunks buf start_idx pg pth).length),
        ∃ s, ((flushChunks chunks buf start_idx pg pth).get ⟨j, h⟩).chunk_id
          = dlChunkId s j) := by
  by_cases hb : buf = []
  · rw [hb, flushChunks_nil]
    exact ⟨htexts, hpages, hids⟩
  · by_cases ht : pyStrip (pyJoin dlSep buf) = []
    · have heq : flushChunks chunks buf start_idx pg pth = chunks := by
        unfold flushChunks
        rw [if_neg hb, if_pos ht]
      rw [heq]
      exact ⟨htexts, hpages, hids⟩
    · rw [flushChunks_emits hb ht]
      refine ⟨?_, ?_, ?_⟩
      · intro c hc
        rcases List.mem_append.mp hc with h | h
        · exact htexts c h
        · rw [List.mem_singleton.mp h]
          exact ⟨ht, pyStrip_idem _⟩
      · intro c hc
        rcases List.mem_append.mp hc with h | h
        · exact hpages c h
        · rw [List.mem_singleton.mp h]
          exact pageOr1_ge_one hpg
      · intro j hlt
        rw [List.length_append, List.length_cons, List.length_nil] at hlt
        by_cases hj : j < chunks.length
        · obtain ⟨s, hs⟩ := hids j hj
          refine ⟨s, ?_⟩
          rw [List.get_append _ hj]
          exact hs
        · have hje : j = chunks.length := by omega
          subst hje
          refine ⟨start_idx, ?_⟩
          rw [List.get_of_append rfl rfl]

theorem mergeStep_GInv (max_chars overlap : Nat) (st : MState) (i : Nat) (sp : Span)
    (hsp : PageOk sp.page) (hinv : GInv st) : GInv (mergeStep max_chars overlap st i sp) := by
  obtain ⟨htexts, hpages, hids, hcur⟩ := hinv
  by_cases hbuf : st.buf = []
  · by_cases hlen : max_chars ≤ st.cur_len + sp.text.length
    · by_cases hov2 : 0 < overlap
      · have hstep : mergeStep max_chars overlap st i sp =
            { chunks := flushChunks st.chunks [sp.text] i sp.page sp.path,
              buf := [takeLast overlap (pyJoin dlSep [sp.text])], start := i,
              cur_len := (takeLast overlap (pyJoin dlSep [sp.text])).length,
              current_path := sp.path, current_page := sp.page } := by
          simp [mergeStep, hbuf, hlen, hov2]
        rw [hstep]
        obtain ⟨h1, h2, h3⟩ := @flushChunks_GInv st.chunks [sp.text] i sp.page sp.path
          htexts hpages hids hsp
        exact ⟨h1, h2, h3, hsp⟩
      · have hstep : mergeStep max_chars overlap st i sp =
            { chunks := flushChunks st.chunks [sp.text] i sp.page sp.path,
              buf := [], start := i, cur_len := 0,
              current_path := sp.path, current_page := sp.page } := by
          simp [mergeStep, hbuf, hlen, hov2]
        rw [hstep]
        obtain ⟨h1, h2, h3⟩ := @flushChunks_GInv st.chunks [sp.text] i sp.page sp.path
          htexts hpages hids hsp
        exact ⟨h1, h2, h3, hsp⟩
    · have hstep : mergeStep max_chars overlap st i sp =
          { chunks := st.chunks, buf := [sp.text], start := i,
            cur_len := st.cur_len + sp.text.length,
            current_path := sp.path, current_page := sp.page } := by
        simp [mergeStep, hbuf, hlen]
      rw [hstep]
      exact ⟨htexts, hpages, hids, hsp⟩
  · by_cases hp : sp.path = st.current_path
    · by_cases hlen : max_chars ≤ st.cur_len + sp.text.length
      · by_cases hov2 : 0 < overlap
        · have hstep : mergeStep max_chars overlap st i sp =
              { chunks := flushChunks st.chunks (st.buf ++ [sp.text]) st.start
                  st.current_page st.current_path,
                buf := [takeLast overlap (pyJoin dlSep (st.buf ++ [sp.text]))],
                start := i,
                cur_len := (takeLast overlap (pyJoin dlSep (st.buf ++ [sp.text]))).length,
                current_path := sp.path, current_page := sp.page } := by
            simp [mergeStep, hbuf, hp, hlen, hov2]
          rw [hstep]
          obtain ⟨h1, h2, h3⟩ := @flushChunks_GInv st.chunks (st.buf ++ [sp.text])
            st.start st.current_page st.current_path htexts hpages hids hcur
          exact ⟨h1, h2, h3, hsp⟩
        · have hstep : mergeStep max_chars overlap st i sp =
              { chunks := flushChunks st.chunks (st.buf ++ [sp.text]) st.start
                  st.current_page st.current_path,
                buf := [], start := i, cur_len := 0,
                current_path := sp.path, current_page := sp.page } := by
            simp [mergeStep, hbuf, hp, hlen, hov2]
          rw [hstep]
          obtain ⟨h1, h2, h3⟩ := @flushChunks_GInv st.chunks (st.buf ++ [sp.text])
            st.start st.current_page st.current_path htexts hpages hids hcur
          exact ⟨h1, h2, h3, hsp⟩
      · have hstep : mergeStep max_chars overlap st i sp =
            { st with buf := st.buf ++ [sp.text],
                      cur_len := st.cur_len + sp.text.length } := by
          simp [mergeStep, hbuf, hp, hlen]
        rw [hstep]
        exact ⟨htexts, hpages, hids, hcur⟩
    · obtain ⟨g1, g2, g3⟩ := @flushChunks_GInv st.chunks st.buf st.start st.current_page
        st.current_path htexts hpages hids hcur
      by_cases hlen2 : max_chars ≤ sp.text.length
      · by_cases hov2 : 0 < overlap
        · have hstep : mergeStep max_chars overlap st i sp =
              { chunks := flushChunks
                  (flushChunks st.chunks st.buf st.start st.current_page st.current_path)
                  [sp.text] i sp.page sp.path,
                buf := [takeLast overlap (pyJoin dlSep [sp.text])], start := i,
                cur_len := (takeLast overlap (pyJoin dlSep [sp.text])).length,
                current_path := sp.path, current_page := sp.page } := by
            simp [mergeStep, hbuf, hp, hlen2, hov2]
          rw [hstep]
          obtain ⟨h1, h2, h3⟩ := @flushChunks_GInv _ [sp.text] i sp.page sp.path
            g1 g2 g3 hsp
          exact ⟨h1, h2, h3, hsp⟩
        · have hstep : mergeStep max_chars overlap st i sp =
              { chunks := flushChunks
                  (flushChunks st.chunks st.buf st.start st.current_page st.current_path)
                  [sp.text] i sp.page sp.path,
                buf := [], start := i, cur_len := 0,
                current_path := sp.path, current_page := sp.page } := by
            simp [mergeStep, hbuf, hp, hlen2, hov2]
          rw [hstep]
          obtain ⟨h1, h2, h3⟩ := @flushChunks_GInv _ [sp.text] i sp.page sp.path
            g1 g2 g3 hsp
          exact ⟨h1, h2, h3, hsp⟩
      · have hstep : mergeStep max_chars overlap st i sp =
            { chunks := flushChunks st.chunks st.buf st.start st.current_page
                st.current_path,
              buf := [sp.text], start := i, cur_len := sp.text.length,
              current_path := sp.path, current_page := sp.page } := by
          simp [mergeStep, hbuf, hp, hlen2]
        rw [hstep]
        exact ⟨g1, g2, g3, hsp⟩

theorem mergeLoop_GInv (max_chars overlap : Nat) :
    ∀ (spans : List Span) (i : Nat) (st : MState),
      (∀ sp ∈ spans, PageOk sp.page) → GInv st →
      GInv (mergeLoop max_chars overlap i st spans) := by
  intro spans
  induction spans with
  | nil => intro i st _ hinv; exact hinv
  | cons sp rest ih =>
    intro i st hpg hinv
    exact ih (i + 1) _ (fun s hs => hpg s (List.mem_cons_of_mem _ hs))
      (mergeStep_GInv max_chars overlap st i sp (hpg sp (List.mem_cons_self _ _)) hinv)

theorem pairwise_ne_of_dlIds {l : List Chunk}
    (hids : ∀ j (h : j < l.length), ∃ s, (l.get ⟨j, h⟩).chunk_id = dlChunkId s j) :
    List.Pairwise (fun a b => a.chunk_id ≠ b.chunk_id) l := by
  rw [List.pairwise_iff_getElem]
  intro a b ha hb hab heq
  obtain ⟨s1, hs1⟩ := hids a ha
  obtain ⟨s2, hs2⟩ := hids b hb
  rw [List.get_eq_getElem] at hs1 hs2
  rw [hs1, hs2] at heq
  have := dlChunkId_inj_pos heq
  omega

/-- The merge/split run over spans with well-formed pages: every chunk text is
non-blank and strip-invariant, every page is `≥ 1`, ids are pairwise distinct. -/
theorem mergeSpans_GInv (max_chars overlap : Nat) (spans : List Span)
    (hpg : ∀ sp ∈ spans, PageOk sp.page) :
    (∀ c ∈ mergeSpans max_chars overlap spans,
        c.text ≠ [] ∧ pyStrip c.text = c.text ∧ 1 ≤ c.page) ∧
    List.Pairwise (fun a b => a.chunk_id ≠ b.chunk_id)
      (mergeSpans max_chars overlap spans) := by
  have hinit : GInv initMState :=
    ⟨by simp [initMState], by simp [initMState], by simp [initMState], Or.inl rfl⟩
  obtain ⟨htexts, hpages, hids, hcur⟩ :=
    mergeLoop_GInv max_chars overlap spans 0 initMState hpg hinit
  have hms : mergeSpans max_chars overlap spans
      = flushChunks (mergeLoop max_chars overlap 0 initMState spans).chunks
          (mergeLoop max_chars overlap 0 initMState spans).buf
          (mergeLoop max_chars overlap 0 initMState spans).start
          (mergeLoop max_chars overlap 0 initMState spans).current_page
          (mergeLoop max_chars overlap 0 initMState spans).current_path := rfl
  obtain ⟨f1, f2, f3⟩ := @flushChunks_GInv
    (mergeLoop max_chars overlap 0 initMState spans).chunks
    (mergeLoop max_chars overlap 0 initMState spans).buf
    (mergeLoop max_chars overlap 0 initMState spans).start
    (mergeLoop max_chars overlap 0 initMState spans).current_page
    (mergeLoop max_chars overlap 0 initMState spans).current_path
    htexts hpages hids hcur
  rw [hms]
  refine ⟨fun c hc => ⟨(f1 c hc).1, (f1 c hc).2, f2 c hc⟩, pairwise_ne_of_dlIds f3⟩

theorem pageLoop_spec (max_chars overlap : Nat) (hmax : 1 ≤ max_chars)
    (hov : overlap < max_chars) (page_num : Int) (text : Str) :
    ∀ fuel start l, pageLoop max_chars overlap page_num text fuel start = some l →
      (∀ c ∈ l, c.page = page_num ∧ c.text ≠ []) ∧
      ∃ starts : List Nat, l.map (fun c => c.chunk_id) = starts.map (pChunkId page_num) ∧
        List.Chain' (· < ·) starts ∧ (∀ s ∈ starts, start ≤ s) := by
  intro fuel
  induction fuel with
  | zero =>
    intro start l h
    unfold pageLoop at h
    by_cases hs : start < text.length
    · rw [if_pos hs] at h
      exact absurd h (by simp)
    · rw [if_neg hs] at h
      have hl := Option.some_inj.mp h
      subst hl
      exact ⟨by simp, [], by simp, by simp, by simp⟩
  | succ f ih =>
    intro start l h
    unfold pageLoop at h
    by_cases hs : start < text.length
    · rw [if_pos hs] at h
      have htext : ((text.drop start).take
          (min text.length (start + max_chars) - start)).length
          = min text.length (start + max_chars) - start := by
        rw [List.length_take, List.length_drop]
        omega
      have htne : (text.drop start).take (min text.length (start + max_chars) - start)
          ≠ [] := by
        intro hz
        rw [hz] at htext
        simp at htext
        omega
      by_cases he : min text.length (start + max_chars) = text.length
      · rw [if_pos he] at h
        have hl := Option.some_inj.mp h
        subst hl
        refine ⟨?_, [start], by simp, by simp, by simp⟩
        intro c hc
        rw [List.mem_singleton.mp hc]
        exact ⟨rfl, htne⟩
      · rw [if_neg he] at h
        have hemax : min text.length (start + max_chars) = start + max_chars := by omega
        cases hrec : pageLoop max_chars overlap page_num text f
            (min text.length (start + max_chars) - overlap) with
        | none => rw [hrec] at h; exact absurd h (by simp)
        | some rest =>
          rw [hrec] at h
          have hl := Option.some_inj.mp h
          subst hl
          obtain ⟨hmem, starts, hmap, hchain, hge⟩ := ih _ rest hrec
          refine ⟨?_, start :: starts, ?_, ?_, ?_⟩
          · intro c hc
            rcases List.mem_cons.mp hc with rfl | hc2
            · exact ⟨rfl, htne⟩
            · exact hmem c hc2
          · simp only [List.map_cons, hmap]
          · rw [List.chain'_cons']
            refine ⟨?_, hchain⟩
            intro s hs2
            have hsmem : s ∈ starts := List.mem_of_mem_head? hs2
            have := hge s hsmem
            omega
          · intro s hs2
            rcases List.mem_cons.mp hs2 with rfl | hs3
            · omega
            · have := hge s hs3
              omega
    · rw [if_neg hs] at h
      have hl := Option.some_inj.mp h
      subst hl
      exact ⟨by simp, [], by simp, by simp, by simp⟩

theorem simple_chunk_pages_spec (max_chars overlap : Nat) (hmax : 1 ≤ max_chars)
    (hov : overlap < max_chars) :
    ∀ (pages : List (Int × Str)) (cs : List Chunk),
      (∀ pg ∈ pages, 1 ≤ pg.1) →
      (pages.map fun pg => pg.1).Pairwise (· ≠ ·) →
      simple_chunk_pages pages max_chars overlap = some cs →
      (∀ c ∈ cs, 1 ≤ c.page ∧ c.text ≠ [] ∧ (∃ s, c.chunk_id = pChunkId c.page s) ∧
        c.page ∈ pages.map fun pg => pg.1) ∧
      List.Pairwise (fun a b => a.chunk_id ≠ b.chunk_id) cs := by
  intro pages
  induction pages with
  | nil =>
    intro cs _ _ h
    simp only [simple_chunk_pages, List.mapM_nil] at h
    have hcs : cs = [] := by simpa using h.symm
    subst hcs
    exact ⟨by simp, by simp⟩
  | cons pg rest ih =>
    intro cs hpages hdist h
    unfold simple_chunk_pages at h
    rw [List.mapM_cons] at h
    cases hp : pageLoop max_chars overlap pg.1 pg.2 (pg.2.length + 1) 0 with
    | none => rw [hp] at h; simp at h
    | some l =>
      cases hrest : rest.mapM
          (fun p => pageLoop max_chars overlap p.1 p.2 (p.2.length + 1) 0) with
      | none => rw [hp, hrest] at h; simp at h
      | some ls =>
        rw [hp, hrest] at h
        have hcs : cs = l ++ ls.flatten := by
          have h2 : some ((l :: ls).flatten) = some cs := by simpa using h
          have := Option.some_inj.mp h2
          simpa using this.symm
        subst hcs
        have hsr : simple_chunk_pages rest max_chars overlap = some ls.flatten := by
          unfold simple_chunk_pages
          rw [hrest]
          rfl
        obtain ⟨hmemL, starts, hmap, hchain, _⟩ :=
          pageLoop_spec max_chars overlap hmax hov pg.1 pg.2 (pg.2.length + 1) 0 l hp
        obtain ⟨ihmem, ihpw⟩ := ih ls.flatten
          (fun p hp2 => hpages p (List.mem_cons_of_mem _ hp2))
          (by
            rw [List.map_cons] at hdist
            exact (List.pairwise_cons.mp hdist).2) hsr
        have hpg1 : 1 ≤ pg.1 := hpages pg (List.mem_cons_self _ _)
        have hmemL2 : ∀ c ∈ l, 1 ≤ c.page ∧ c.text ≠ [] ∧
            (∃ s, c.chunk_id = pChunkId c.page s) ∧
            c.page ∈ (pg :: rest).map fun p => p.1 := by
          intro c hc
          obtain ⟨hcpage, hctext⟩ := hmemL c hc
          refine ⟨hcpage ▸ hpg1, hctext, ?_, ?_⟩
          · have hidmem : c.chunk_id ∈ l.map fun c => c.chunk_id :=
              List.mem_map_of_mem _ hc
            rw [hmap] at hidmem
            obtain ⟨s, _, hs⟩ := List.mem_map.mp hidmem
            exact ⟨s, by rw [hcpage, ← hs]⟩
          · rw [hcpage]
            simp
        constructor
        · intro c hc
          rcases List.mem_append.mp hc with hcl | hcr
          · exact hmemL2 c hcl
          · obtain ⟨h1, h2, h3, h4⟩ := ihmem c hcr
            exact ⟨h1, h2, h3, by simpa using Or.inr (by simpa using h4)⟩
        · rw [List.pairwise_append]
          refine ⟨?_, ihpw, ?_⟩
          · have hpwids : List.Pairwise (· ≠ ·) (l.map fun c => c.chunk_id) := by
              rw [hmap]
              rw [List.pairwise_map]
              have hpwlt : List.Pairwise (· < ·) starts :=
                List.chain'_iff_pairwise.mp hchain
              refine hpwlt.imp ?_
              intro a b hab heq
              have := (pChunkId_inj heq).2
              omega
            exact (List.pairwise_map).mp hpwids
          · intro a ha b hb
            obtain ⟨hapage, _⟩ := hmemL a ha
            obtain ⟨sa, hsa⟩ := (hmemL2 a ha).2.2.1
            obtain ⟨_, _, ⟨sb, hsb⟩, hbpage⟩ := ihmem b hb
            intro heq
            have h1 : pChunkId a.page sa = pChunkId b.page sb := by
              rw [← hsa, heq, hsb]
            have hpe : a.page = b.page := (pChunkId_inj h1).1
            have hdist2 := List.pairwise_cons.mp
              (by rw [List.map_cons] at hdist; exact hdist)
            have hne := hdist2.1 b.page hbpage
            apply hne
            rw [← hpe, hapage]

/-- C5 (amended): an unparseable root (`_docling_to_json` returning `None`)
yields exactly one chunk on page 1 with no section hint containing the whole
stringified input; but an empty parsed structure (an empty JSON object or
array) yields zero chunks, not one — the walker produces no spans and the
merge loop emits nothing. -/
theorem C5_degenerate_input (docStr : Str) (max_chars overlap : Nat) :
    docling_to_chunks none docStr max_chars overlap
      = [{ chunk_id := str "dl_0", page := 1, text := docStr, section_hint := none }] ∧
    docling_to_chunks (some (JsonVal.obj JsonObj.nil)) docStr max_chars overlap = [] ∧
    docling_to_chunks (some (JsonVal.arr JsonList.nil)) docStr max_chars overlap = [] :=
  ⟨rfl, rfl, rfl⟩

/-- C5 counterexample: the empty parsed structure (an empty JSON object —
degenerate input per the claim) produces zero chunks at the source defaults,
not exactly one: only the `raw is None` case produces the single stringified
chunk (docling.py lines 192-194). -/
theorem C5_counterexample :
    docling_to_chunks (some (JsonVal.obj JsonObj.nil))
        (pyStr (JsonVal.obj JsonObj.nil)) 2500 200 = [] ∧
    (docling_to_chunks (some (JsonVal.obj JsonObj.nil))
        (pyStr (JsonVal.obj JsonObj.nil)) 2500 200).length ≠ 1 := by
  have h : docling_to_chunks (some (JsonVal.obj JsonObj.nil))
      (pyStr (JsonVal.obj JsonObj.nil)) 2500 200 = [] := rfl
  exact ⟨h, by rw [h]; decide⟩

/-- C4 (amended): chunk lists produced by the Assembler satisfy: (tree path,
for documents none of whose parsed nodes carries a negative page number) every
chunk text is non-empty and strip-invariant — hence non-empty after trimming —
every page is `≥ 1`, and chunk ids are pairwise distinct; (degenerate path)
the single chunk has page 1 and carries the unvalidated stringified input;
(page-window fallback, for `0 < maxChars`, `overlap < maxChars`, positive and
pairwise-distinct input page numbers) every chunk's page is `≥ 1` and its raw
text is non-empty — though it may be whitespace-only when the page text is —
and chunk ids are pairwise distinct. -/
theorem C4_assembler_invariants :
    (∀ (j : JsonVal) (docStr : Str) (mc ov : Nat),
      (∀ sp ∈ iterTextNodes j [], PageOk sp.page) →
      (∀ c ∈ docling_to_chunks (some j) docStr mc ov,
          c.text ≠ [] ∧ pyStrip c.text = c.text ∧ 1 ≤ c.page) ∧
      List.Pairwise (fun a b => a.chunk_id ≠ b.chunk_id)
        (docling_to_chunks (some j) docStr mc ov)) ∧
    (∀ (docStr : Str) (mc ov : Nat),
      docling_to_chunks none docStr mc ov
        = [{ chunk_id := str "dl_0", page := 1, text := docStr,
             section_hint := none }]) ∧
    (∀ (pages : List (Int × Str)) (mc ov : Nat) (cs : List Chunk),
      1 ≤ mc → ov < mc → (∀ pg ∈ pages, 1 ≤ pg.1) →
      (pages.map fun pg => pg.1).Pairwise (· ≠ ·) →
      simple_chunk_pages pages mc ov = some cs →
      (∀ c ∈ cs, 1 ≤ c.page ∧ c.text ≠ []) ∧
      List.Pairwise (fun a b => a.chunk_id ≠ b.chunk_id) cs) := by
  refine ⟨?_, fun _ _ _ => rfl, ?_⟩
  · intro j docStr mc ov hpg
    have hms : docling_to_chunks (some j) docStr mc ov
        = mergeSpans mc ov ((iterTextNodes j []).filter fun sp => !sp.text.isEmpty) :=
      rfl
    have hpg2 : ∀ sp ∈ (iterTextNodes j []).filter fun sp => !sp.text.isEmpty,
        PageOk sp.page := fun sp hsp => hpg sp (List.mem_of_mem_filter hsp)
    obtain ⟨h1, h2⟩ := mergeSpans_GInv mc ov _ hpg2
    rw [hms]
    exact ⟨h1, h2⟩
  · intro pages mc ov cs hmc hov hpages hdist h
    obtain ⟨h1, h2⟩ := simple_chunk_pages_spec mc ov hmc hov pages cs hpages hdist h
    exact ⟨fun c hc => ⟨(h1 c hc).1, (h1 c hc).2.1⟩, h2⟩

/-- C4 counterexample: a whitespace-only page.  The page-window fallback emits
the raw window `"   "` as a chunk text, which is empty after trimming,
violating the claim's "every Chunk's text is non-empty after trimming" for the
Assembler's fallback path (ingest.py line 16 takes the raw slice with no blank
check). -/
theorem C4_counterexample :
    simple_chunk_pages [((1 : Int), str "   ")] 2000 200
      = some [{ chunk_id := pChunkId 1 0, page := 1, text := str "   ",
                section_hint := none }] ∧
    pyStrip (str "   ") = [] :=
  ⟨rfl, by decide⟩

/-- Witness for C4 at concrete inputs: a one-paragraph document on the tree
path and a single short page on the fallback path. -/
theorem C4_assembler_invariants_witness :
    ((∀ sp ∈ iterTextNodes (JsonVal.obj (jobj [("text", JsonVal.str (str "hello")),
        ("page", JsonVal.int 2)])) [], PageOk sp.page) ∧
      (1 : Nat) ≤ 2 ∧ (1 : Nat) < 2 ∧
      (∀ pg ∈ [((1 : Int), str "ab")], 1 ≤ pg.1) ∧
      ([((1 : Int), str "ab")].map fun pg => pg.1).Pairwise (· ≠ ·) ∧
      simple_chunk_pages [((1 : Int), str "ab")] 2 1
        = some [{ chunk_id := pChunkId 1 0, page := 1, text := str "ab",
                  section_hint := none : Chunk }]) ∧
    ((∀ c ∈ docling_to_chunks (some (JsonVal.obj (jobj
          [("text", JsonVal.str (str "hello")), ("page", JsonVal.int 2)])))
          (str "") 2500 200,
        c.text ≠ [] ∧ pyStrip c.text = c.text ∧ 1 ≤ c.page) ∧
      List.Pairwise (fun a b => a.chunk_id ≠ b.chunk_id)
        (docling_to_chunks (some (JsonVal.obj (jobj
          [("text", JsonVal.str (str "hello")), ("page", JsonVal.int 2)])))
          (str "") 2500 200)) ∧
    ((∀ c ∈ [{ chunk_id := pChunkId 1 0, page := 1, text := str "ab",
               section_hint := none : Chunk }], 1 ≤ c.page ∧ c.text ≠ []) ∧
      List.Pairwise (fun a b => a.chunk_id ≠ b.chunk_id)
        [{ chunk_id := pChunkId 1 0, page := 1, text := str "ab",
             section_hint := none : Chunk }]) :=
  ⟨⟨by decide, by decide, by decide, by decide, by decide, by decide⟩,
   C4_assembler_invariants.1 _ (str "") 2500 200 (by decide),
   C4_assembler_invariants.2.2 [((1 : Int), str "ab")] 2 1 _ (by decide) (by decide)
     (by decide) (by decide) (by decide)⟩

/-- C6 (amended): `load_index` raises FileNotFoundError exactly when the
chunk-list file or the index file is missing, and on success returns precisely
the stored chunk list and stored index verbatim — but it performs no length
validation, so it CAN return a misaligned pair when the persisted artifacts
disagree. -/
theorem C6_load_index (fs : FS) (root tid : Str) :
    (load_index fs root tid = Except.error LoadErr.fileNotFound ↔
      fs.read (root, safe_id tid, str "chunks.json") = none ∨
      fs.read (root, safe_id tid, str "index.faiss") = none) ∧
    (∀ cs n d, load_index fs root tid = Except.ok (cs, n, d) →
      fs.read (root, safe_id tid, str "chunks.json") = some (FileData.chunksJson cs) ∧
      fs.read (root, safe_id tid, str "index.faiss") = some (FileData.faissIndex n d)) := by
  have hdef : load_index fs root tid
      = (match fs.read (root, safe_id tid, str "chunks.json"),
               fs.read (root, safe_id tid, str "index.faiss") with
         | none, _ => Except.error LoadErr.fileNotFound
         | _, none => Except.error LoadErr.fileNotFound
         | some (FileData.chunksJson cs), some (FileData.faissIndex n d) =>
             Except.ok (cs, n, d)
         | some _, some _ => Except.error LoadErr.other) := rfl
  constructor
  · rcases hc : fs.read (root, safe_id tid, str "chunks.json") with _ | c
    · rw [hc] at hdef
      simp [hdef, hc]
    · rcases hi : fs.read (root, safe_id tid, str "index.faiss") with _ | i
      · rw [hc, hi] at hdef
        cases c <;> simp [hdef, hc, hi]
      · rw [hc, hi] at hdef
        cases c <;> cases i <;> simp [hdef, hc, hi]
  · intro cs n d h
    rw [hdef] at h
    rcases hc : fs.read (root, safe_id tid, str "chunks.json") with _ | c <;> rw [hc] at h
    · exact absurd h (by simp)
    · rcases hi : fs.read (root, safe_id tid, str "index.faiss") with _ | i <;> rw [hi] at h
      · exact absurd h (by cases c <;> simp)
      · cases c <;> cases i <;> simp at h
        obtain ⟨h1, h2, h3⟩ := h
        subst h1; subst h2; subst h3
        exact ⟨rfl, rfl⟩

/-- C6 counterexample: a store pairing a one-chunk `chunks.json` with a
two-vector `index.faiss`.  `load_index` succeeds and returns the misaligned
pair (1 chunk against ntotal = 2) instead of failing: index_store.py lines
52-55 parse and return with no length check. -/
theorem C6_counterexample :
    load_index
      ⟨[(((str "r"), (str "t"), str "chunks.json"),
           FileData.chunksJson [{ chunk_id := str "a", page := 1, text := str "x",
                                    section_hint := none }]),
        (((str "r"), (str "t"), str "index.faiss"), FileData.faissIndex 2 8)]⟩
      (str "r") (str "t")
      = Except.ok ([{ chunk_id := str "a", page := 1, text := str "x",
                        section_hint := none }], 2, 8) ∧
    ([{ chunk_id := str "a", page := 1, text := str "x",
          section_hint := none : Chunk }]).length ≠ 2 := by
  exact ⟨rfl, by decide⟩

/-- C7: at a shape-mismatched build (1 chunk, 2 embedding vectors) from an
empty store, `save_index` does not abort: it returns without raising and
persists BOTH artifacts, a `chunks.json` holding 1 chunk paired with a FAISS
index holding ntotal = 2 vectors.  index_store.py lines 24-29 write the chunk
metadata before the index is even built, and lines 32-38 never compare
`len(embeddings)` with `len(chunks)`. -/
theorem C7_shape_mismatch_persists :
    (save_index ⟨[]⟩ (str "r") (str "t")
        [{ chunk_id := str "a", page := 1, text := str "x", section_hint := none }]
        [[1], [2]]).2 = false ∧
    ((save_index ⟨[]⟩ (str "r") (str "t")
        [{ chunk_id := str "a", page := 1, text := str "x", section_hint := none }]
        [[1], [2]]).1.read (str "r", safe_id (str "t"), str "chunks.json")
      = some (FileData.chunksJson
          [{ chunk_id := str "a", page := 1, text := str "x", section_hint := none }])) ∧
    ((save_index ⟨[]⟩ (str "r") (str "t")
        [{ chunk_id := str "a", page := 1, text := str "x", section_hint := none }]
        [[1], [2]]).1.read (str "r", safe_id (str "t"), str "index.faiss")
      = some (FileData.faissIndex 2 1)) ∧
    (1 : Nat) ≠ 2 :=
  ⟨rfl, rfl, rfl, by decide⟩

/-- C8: in degraded mode the fallback returns the `top_k` chunks ranked by
descending text length — a stable descending reordering of the stored chunks,
truncated to `top_k` — each paired with the fixed nominal score 1.0. -/
theorem C8_fallback_ranking (chunks : List Chunk) (top_k : Nat) :
    ∃ ranked : List Chunk,
      List.Perm ranked chunks ∧
      ranked.Pairwise (fun a b => b.text.length ≤ a.text.length) ∧
      SimpleRetriever_query_fallback chunks top_k
        = (ranked.take top_k).map (fun c => (c, (1 : Int))) ∧
      (SimpleRetriever_query_fallback chunks top_k).length = min top_k chunks.length ∧
      ∀ p ∈ SimpleRetriever_query_fallback chunks top_k, p.2 = 1 := by
  refine ⟨chunks.mergeSort lenDesc, List.mergeSort_perm chunks lenDesc, ?_, rfl, ?_, ?_⟩
  · have h := @List.sorted_mergeSort Chunk lenDesc
      (fun a b c hab hbc => by
        simp only [lenDesc, decide_eq_true_eq] at hab hbc ⊢
        exact le_trans hbc hab)
      (fun a b => by
        simp only [lenDesc, Bool.or_eq_true, decide_eq_true_eq]
        exact le_total b.text.length a.text.length)
      chunks
    exact h.imp fun hab => by simpa [lenDesc] using hab
  · rw [SimpleRetriever_query_fallback, List.length_map, List.length_take,
      (List.mergeSort_perm chunks lenDesc).length_eq]
  · intro p hp
    rw [SimpleRetriever_query_fallback] at hp
    obtain ⟨c, _, hc⟩ := List.mem_map.mp hp
    exact hc ▸ rfl

theorem coerceScalar_eq (kvs : List (String × JsonVal)) (k : String) :
    coerceScalar kvs k = ((jGet kvs k).filter fun v => !isNull v).map pyStr := by
  unfold coerceScalar
  rcases h : jGet kvs k with _ | v
  · rfl
  · cases v <;> rfl

/-- C9: schema coercion maps each fixed scalar field to null when the key is
missing or its value is null, and to the stringified value when present; it
maps a non-list `compliance_notes` (or a missing key) to the empty list and a
list to its elements stringified with null elements dropped, order preserved;
in particular `\x7b"compliance_notes": [1, null, "x"]\x7d` coerces to
`\x7b"compliance_notes": ["1", "x"]\x7d`. -/
theorem C9_coerce_summary :
    (∀ o : JsonObj,
      (∀ fd ∈ [((coerce_summary (.obj o)).tender_name, "tender_name"),
               ((coerce_summary (.obj o)).issuer, "issuer"),
               ((coerce_summary (.obj o)).emd_amount, "emd_amount"),
               ((coerce_summary (.obj o)).location, "location"),
               ((coerce_summary (.obj o)).duration, "duration"),
               ((coerce_summary (.obj o)).scope_of_work, "scope_of_work")],
        fd.1 = ((jGet o.toList fd.2).filter fun v => !isNull v).map pyStr) ∧
      (∀ xs, jGet o.toList "compliance_notes" = some (.arr xs) →
        (coerce_summary (.obj o)).compliance_notes
          = some ((xs.toList.filter fun x => !isNull x).map pyStr)) ∧
      (∀ v, jGet o.toList "compliance_notes" = some v → (∀ xs, v ≠ .arr xs) →
        (coerce_summary (.obj o)).compliance_notes = some []) ∧
      (jGet o.toList "compliance_notes" = none →
        (coerce_summary (.obj o)).compliance_notes = some [])) ∧
    (coerce_summary (.obj (jobj [("compliance_notes",
        .arr (jarr [.int 1, .null, .str (str "x")]))]))).compliance_notes
      = some [str "1", str "x"] := by
  constructor
  · intro o
    refine ⟨?_, ?_, ?_, ?_⟩
    · intro fd hfd
      fin_cases hfd <;> simp [coerce_summary, coerceScalar_eq]
    · intro xs h
      simp [coerce_summary, coerceNotes, h]
    · intro v h hne
      have : (match jGet o.toList "compliance_notes" with
          | some (.arr xs) => (xs.toList.filter fun x => !isNull x).map pyStr
          | _ => []) = [] := by
        rw [h]
        cases v with
        | arr xs => exact absurd rfl (hne xs)
        | _ => rfl
      simp [coerce_summary, coerceNotes, this]
    · intro h
      simp [coerce_summary, coerceNotes, h]
  · decide

/-- C1 (amended): a failing completion is caught and surfaces as the literal
sentinel `"Not found in tender"` — not the empty string — and
`extract_summary_groq` is total: on a completion failure (for non-empty input
chunks, with `json.loads` raising on the sentinel, which is not JSON) the
extraction degrades to the all-null record and returns the heuristic
fallback's result, so a summary record is always produced. -/
theorem C1_error_handling (jloads : Str → Option JsonVal) (chunks : List Chunk)
    (hch : chunks ≠ []) (hj : jloads (str "Not found in tender") = none) :
    GroqLLM_complete none = str "Not found in tender" ∧
    extract_summary_groq jloads chunks none = extract_summary_rules chunks := by
  refine ⟨rfl, ?_⟩
  have hblk : extract_json_block (GroqLLM_complete none) = none := rfl
  have hj2 : jloads (GroqLLM_complete none) = none := hj
  have hemp : is_effectively_empty emptySummary = true := rfl
  unfold extract_summary_groq
  rw [if_neg hch]
  simp only [hblk, hj2, hemp, if_true]

/-- C1 counterexample: the caught completion failure is returned as the
sentinel `"Not found in tender"` (llm_groq.py line 27), not as the empty
string the spec prescribes. -/
theorem C1_counterexample :
    GroqLLM_complete none = str "Not found in tender" ∧
    GroqLLM_complete none ≠ str "" :=
  ⟨rfl, by decide⟩

/-- Witness for C1 at a one-chunk input with a `json.loads` that raises on
every non-JSON string. -/
theorem C1_error_handling_witness :
    ([{ chunk_id := str "a", page := 1, text := str "x",
          section_hint := none : Chunk }] ≠ ([] : List Chunk)) ∧
    ((fun _ => (none : Option JsonVal)) (str "Not found in tender")
      = (none : Option JsonVal)) ∧
    (GroqLLM_complete none = str "Not found in tender" ∧
      extract_summary_groq (fun _ => none)
        [{ chunk_id := str "a", page := 1, text := str "x", section_hint := none }]
        none
      = extract_summary_rules
          [{ chunk_id := str "a", page := 1, text := str "x", section_hint := none }]) :=
  ⟨by decide, rfl, C1_error_handling (fun _ => none) _ (by decide) rfl⟩
